import Mathlib

/-!
# Verification of the efmt parse/format pipeline

Shallow embedding of the efmt source formatter (an Erlang source-code
pretty printer) and proofs about it.  Rust source files are translated
into executable Lean definitions: pure functions become Lean functions,
the mutable token cursor becomes explicit state passing, fallible
operations return `Except`, and the `todo!()` macro-expansion panics of
the source are modelled by a distinguished `panic` result constructor.

Sections:
* `Efmt.Base`    — positions, spans and lexical tokens (from `erl_tokenize`
                   and `src/items/tokens.rs` declarations used by `src/`).
* `Efmt.Lex`     — the token cursor of `src/lexer.rs`.
* `Efmt.Items`   — the generic CST combinators of `src/items/generics.rs`
                   and the macro machinery of `src/items/macros.rs`.
* `Efmt.Cst`     — the alternation parser of `src/cst/expressions.rs`.
* `Efmt.Fmt`     — the `Elements` packing logic of `src/items/generics.rs`.
* `Efmt.Rec`     — the record access/update formatting of
                   `src/items/expressions/records.rs`.
-/

namespace Efmt

/-! ## Base: positions, spans, lexical tokens -/

/-- A token span: start and end position (byte offsets / token indexes;
the code's `Position` is opaque to all the logic modelled here). -/
structure Span where
  startPos : Nat
  endPos : Nat
deriving DecidableEq, Repr

/-- Symbols of `erl_tokenize::values::Symbol` used by the embedded code. -/
inductive Sym where
  | openParen
  | closeParen
  | openBrace
  | closeBrace
  | openSquare
  | closeSquare
  | doubleLeftAngle
  | doubleRightAngle
  | comma
  | question
  | dot
  | sharp
  | matchSym
  | semicolon
  | plus
deriving DecidableEq, Repr

/-- Keywords of `erl_tokenize::values::Keyword` used by the embedded code. -/
inductive Kw where
  | begin_
  | try_
  | case_
  | if_
  | fun_
  | end_
  | catch_
  | of_
  | receive_
  | after_
  | when_
deriving DecidableEq, Repr

structure AtomToken where
  value : String
  span : Span
deriving DecidableEq, Repr

structure VariableToken where
  value : String
  span : Span
deriving DecidableEq, Repr

structure IntegerToken where
  value : Nat
  span : Span
deriving DecidableEq, Repr

structure StringToken where
  value : String
  span : Span
deriving DecidableEq, Repr

structure SymbolToken where
  value : Sym
  span : Span
deriving DecidableEq, Repr

structure KeywordToken where
  value : Kw
  span : Span
deriving DecidableEq, Repr

/-- `src/items/tokens.rs`'s `Token` enum (the variants exercised by the
code under verification; `Char`/`Float` carry their text like `String`). -/
inductive Token where
  | atom (t : AtomToken)
  | var (t : VariableToken)
  | integer (t : IntegerToken)
  | string (t : StringToken)
  | symbol (t : SymbolToken)
  | keyword (t : KeywordToken)
deriving DecidableEq, Repr

def Token.startPosition : Token → Nat
  | .atom t => t.span.startPos
  | .var t => t.span.startPos
  | .integer t => t.span.startPos
  | .string t => t.span.startPos
  | .symbol t => t.span.startPos
  | .keyword t => t.span.startPos

def Token.endPosition : Token → Nat
  | .atom t => t.span.endPos
  | .var t => t.span.endPos
  | .integer t => t.span.endPos
  | .string t => t.span.endPos
  | .symbol t => t.span.endPos
  | .keyword t => t.span.endPos

/-- `Token::set_span`: overwrite the token's span with the given one. -/
def Token.setSpan (sp : Span) : Token → Token
  | .atom t => .atom { t with span := sp }
  | .var t => .var { t with span := sp }
  | .integer t => .integer { t with span := sp }
  | .string t => .string { t with span := sp }
  | .symbol t => .symbol { t with span := sp }
  | .keyword t => .keyword { t with span := sp }

end Efmt

namespace Efmt.Lex

/-! ## `src/lexer.rs`: the token cursor and its transaction -/

/-- Error type of the lexer layer (`crate::Error`): `UnexpectedEof` plus
free-form errors produced by `read_expect` mismatches. -/
inductive LError where
  | unexpectedEof
  | unexpectedToken (msg : String)
deriving DecidableEq, Repr

/-- `src/lexer.rs`'s `Lexer`: a token vector plus a cursor index. -/
structure Lexer where
  tokens : List Token
  index : Nat
deriving DecidableEq, Repr

/-- `Lexer::current_position`. -/
def Lexer.currentPosition (l : Lexer) : Nat := l.index

/-- `Lexer::read_token`: advance one token, `UnexpectedEof` past the end. -/
def Lexer.readToken (l : Lexer) : Except LError Token × Lexer :=
  match l.tokens.get? l.index with
  | some token => (Except.ok token, { l with index := l.index + 1 })
  | none => (Except.error LError.unexpectedEof, l)

/-- `Lexer::with_transaction`: run `f`; on failure restore the cursor to
the pre-call index and return `f`'s error; on success keep `f`'s cursor. -/
def Lexer.withTransaction (l : Lexer) (f : Lexer → Except LError T × Lexer) :
    Except LError T × Lexer :=
  let position := l.index
  match f l with
  | (Except.error e, l') => (Except.error e, { l' with index := position })
  | (Except.ok x, l') => (Except.ok x, l')

/-- `Lexer::with_peek`: run `f` and restore the cursor unconditionally. -/
def Lexer.withPeek (l : Lexer) (f : Lexer → T × Lexer) : T × Lexer :=
  let position := l.index
  let result := f l
  (result.1, { result.2 with index := position })

end Efmt.Lex

namespace Efmt.Items

open Efmt

/-! ## `src/items/`: CST combinators and the macro machinery

The `TokenStream` type itself (`src/parse/token_stream.rs`) is not under
`src/`; following the spec (§4.1) it is modelled as an indexed view over
a finite token vector with a macro directory, where `parse::<T>()`
dispatches to `T`'s parse routine inside a transaction.  Errors carry no
stream state, so a failed parse leaves the caller's cursor untouched,
which is exactly the transaction semantics.  The `todo!()` calls of
`MacroArg::parse` are modelled by the `panic` result. -/

/-- Parse-layer errors (kinds, per spec §7). -/
inductive PError where
  | unexpectedEof
  | unexpectedToken
deriving DecidableEq, Repr

/-- Modelled from the spec: the token stream (`src/parse/token_stream.rs`
is absent from `src/`): an indexed view over a finite token vector plus
the macro directory keyed by call-site start position (`ts.macros()`,
used via `contains_key` only). -/
structure TokenStream where
  tokens : List Token
  index : Nat
  macros : List Nat
deriving DecidableEq, Repr

/-- Result of a fallible parse: success with the advanced stream, an
error (the caller's stream is unchanged — transactional rollback), or a
`todo!()` panic. -/
inductive PResult (α : Type) where
  | ok (val : α) (ts : TokenStream)
  | error (e : PError)
  | panic
deriving DecidableEq, Repr

/-- A CST node kind that knows how to parse itself (the `Parse` trait). -/
class Parse (α : Type) where
  parse : TokenStream → PResult α

/-- A parse routine that, on success, strictly advances the cursor, never
runs past the token vector, and leaves tokens and macro directory
unchanged.  (All token-consuming parsers used here satisfy this; it is
what makes the `NonEmptyItems` parse loop terminate.) -/
class LawfulConsuming (α : Type) [Parse α] : Prop where
  consumes : ∀ ts (v : α) ts', Parse.parse ts = PResult.ok v ts' →
    ts.index < ts'.index ∧ ts'.index ≤ ts.tokens.length ∧
    ts'.tokens = ts.tokens ∧ ts'.macros = ts.macros

/-- `ts.peek::<SomeSymbol>()`: the next token is the given symbol. -/
def TokenStream.peekSymbolIs (ts : TokenStream) (s : Sym) : Bool :=
  match ts.tokens.get? ts.index with
  | some (Token.symbol st) => decide (st.value = s)
  | _ => false

/-- `ts.peek::<Either<CommaSymbol, CloseParenSymbol>>()`. -/
def TokenStream.peekCommaOrCloseParen (ts : TokenStream) : Bool :=
  ts.peekSymbolIs Sym.comma || ts.peekSymbolIs Sym.closeParen

/-- `ts.peek::<(Token, OpenParenSymbol)>()`: any token, then `(`. -/
def TokenStream.peekTokenThenOpenParen (ts : TokenStream) : Bool :=
  match ts.tokens.get? ts.index, ts.tokens.get? (ts.index + 1) with
  | some _, some (Token.symbol st) => decide (st.value = Sym.openParen)
  | _, _ => false

/-- Modelled from the spec: `prev_token_end_position` (absent
`TokenStream` accessor); the end of the token before the cursor, `0` at
the stream start.  Only stored in `Maybe` nodes for zero-width regions;
no claim depends on its value. -/
def TokenStream.prevTokenEndPosition (ts : TokenStream) : Nat :=
  match ts.index, ts.tokens.get? (ts.index - 1) with
  | 0, _ => 0
  | _ + 1, some t => t.endPosition
  | _ + 1, none => 0

/-- Modelled from the spec: `next_token_start_position` (absent
`TokenStream` accessor); the start of the token at the cursor, falling
back to the previous end at end of input. -/
def TokenStream.nextTokenStartPosition (ts : TokenStream) : Nat :=
  match ts.tokens.get? ts.index with
  | some t => t.startPosition
  | none => ts.prevTokenEndPosition

/-- `ts.parse::<Token>()`: read the next token, `UnexpectedEof` past the
end. -/
def parseToken (ts : TokenStream) : PResult Token :=
  match ts.tokens.get? ts.index with
  | some token => PResult.ok token { ts with index := ts.index + 1 }
  | none => PResult.error PError.unexpectedEof

instance : Parse Token := ⟨parseToken⟩

/-- Parse a specific symbol token (`SomeSymbol::parse` via
`read_expect`): read one token and require the given symbol. -/
def parseSymbol (s : Sym) (ts : TokenStream) : PResult SymbolToken :=
  match ts.tokens.get? ts.index with
  | some (Token.symbol st) =>
      if st.value = s then PResult.ok st { ts with index := ts.index + 1 }
      else PResult.error PError.unexpectedToken
  | some _ => PResult.error PError.unexpectedToken
  | none => PResult.error PError.unexpectedEof

structure QuestionSymbol where
  span : Span
deriving DecidableEq, Repr

structure CommaSymbol where
  span : Span
deriving DecidableEq, Repr

structure OpenParenSymbol where
  span : Span
deriving DecidableEq, Repr

structure CloseParenSymbol where
  span : Span
deriving DecidableEq, Repr

def CommaSymbol.parse (ts : TokenStream) : PResult CommaSymbol :=
  match parseSymbol Sym.comma ts with
  | PResult.ok st ts' => PResult.ok ⟨st.span⟩ ts'
  | PResult.error e => PResult.error e
  | PResult.panic => PResult.panic

instance : Parse CommaSymbol := ⟨CommaSymbol.parse⟩

def OpenParenSymbol.parse (ts : TokenStream) : PResult OpenParenSymbol :=
  match parseSymbol Sym.openParen ts with
  | PResult.ok st ts' => PResult.ok ⟨st.span⟩ ts'
  | PResult.error e => PResult.error e
  | PResult.panic => PResult.panic

instance : Parse OpenParenSymbol := ⟨OpenParenSymbol.parse⟩

def CloseParenSymbol.parse (ts : TokenStream) : PResult CloseParenSymbol :=
  match parseSymbol Sym.closeParen ts with
  | PResult.ok st ts' => PResult.ok ⟨st.span⟩ ts'
  | PResult.error e => PResult.error e
  | PResult.panic => PResult.panic

instance : Parse CloseParenSymbol := ⟨CloseParenSymbol.parse⟩

/-- `Either<A, B>` from `src/items/generics.rs`. -/
inductive Either (A B : Type) where
  | a (x : A)
  | b (x : B)
deriving DecidableEq, Repr

/-- `Maybe<T>` from `src/items/generics.rs`. -/
structure Maybe (T : Type) where
  item : Option T
  prevTokenEndPosition : Nat
  nextTokenStartPosition : Nat
deriving DecidableEq, Repr

/-- `Maybe::none`. -/
def Maybe.none (ts : TokenStream) (T : Type) : Maybe T :=
  { item := Option.none
    prevTokenEndPosition := ts.prevTokenEndPosition
    nextTokenStartPosition := ts.nextTokenStartPosition }

/-- `Maybe::get`. -/
def Maybe.get (m : Maybe T) : Option T := m.item

/-- `Maybe<T>`'s parse: always succeeds, absorbing a failed inner parse
(`lexer.parse().ok()`, cursor rolled back by the transaction). -/
def Maybe.parse (T : Type) [Parse T] (ts : TokenStream) :
    PResult (Maybe T) :=
  let prev := ts.prevTokenEndPosition
  let next := ts.nextTokenStartPosition
  match Parse.parse (α := T) ts with
  | PResult.ok v ts' => PResult.ok ⟨some v, prev, next⟩ ts'
  | PResult.error _ => PResult.ok ⟨Option.none, prev, next⟩ ts
  | PResult.panic => PResult.panic

instance [Parse T] : Parse (Maybe T) := ⟨Maybe.parse T⟩

/-- `Parenthesized<T>` from `src/items/generics.rs`. -/
structure Parenthesized (T : Type) where
  open_ : OpenParenSymbol
  item : T
  close : CloseParenSymbol
deriving DecidableEq, Repr

/-- Derived parse of `Parenthesized<T>`: `(`, `T`, `)` in sequence. -/
def Parenthesized.parse (T : Type) [Parse T] (ts : TokenStream) :
    PResult (Parenthesized T) :=
  match Parse.parse (α := OpenParenSymbol) ts with
  | PResult.error e => PResult.error e
  | PResult.panic => PResult.panic
  | PResult.ok op ts₁ =>
    match Parse.parse (α := T) ts₁ with
    | PResult.error e => PResult.error e
    | PResult.panic => PResult.panic
    | PResult.ok item ts₂ =>
      match Parse.parse (α := CloseParenSymbol) ts₂ with
      | PResult.error e => PResult.error e
      | PResult.panic => PResult.panic
      | PResult.ok cp ts₃ => PResult.ok ⟨op, item, cp⟩ ts₃

instance [Parse T] : Parse (Parenthesized T) := ⟨Parenthesized.parse T⟩

/-- `NonEmptyItems<T, D>` from `src/items/generics.rs`. -/
structure NonEmptyItems (T D : Type) where
  items : List T
  delimiters : List D
deriving DecidableEq, Repr

def NonEmptyItems.get (x : NonEmptyItems T D) : List T := x.items

/-- The `while let Some(delimiter) = lexer.parse().ok()` loop of
`NonEmptyItems::parse`: a failed delimiter parse ends the loop; a parsed
delimiter commits to parsing one more item (`lexer.parse()?`). -/
def NonEmptyItems.parseLoop (T D : Type) [Parse T] [Parse D]
    [LawfulConsuming T] [LawfulConsuming D]
    (items : List T) (delimiters : List D) (ts : TokenStream) :
    PResult (NonEmptyItems T D) :=
  match h₁ : Parse.parse (α := D) ts with
  | PResult.error _ => PResult.ok ⟨items, delimiters⟩ ts
  | PResult.panic => PResult.panic
  | PResult.ok delim ts₁ =>
    match h₂ : Parse.parse (α := T) ts₁ with
    | PResult.error e => PResult.error e
    | PResult.panic => PResult.panic
    | PResult.ok item ts₂ =>
      NonEmptyItems.parseLoop T D (items ++ [item]) (delimiters ++ [delim]) ts₂
termination_by ts.tokens.length - ts.index
decreasing_by
  have hd := LawfulConsuming.consumes ts delim ts₁ h₁
  have ht := LawfulConsuming.consumes ts₁ item ts₂ h₂
  obtain ⟨hd1, hd2, hd3, -⟩ := hd
  obtain ⟨ht1, ht2, ht3, -⟩ := ht
  rw [hd3] at ht2 ht3
  rw [ht3]
  omega

def NonEmptyItems.parse (T D : Type) [Parse T] [Parse D]
    [LawfulConsuming T] [LawfulConsuming D] (ts : TokenStream) :
    PResult (NonEmptyItems T D) :=
  match Parse.parse (α := T) ts with
  | PResult.error e => PResult.error e
  | PResult.panic => PResult.panic
  | PResult.ok first ts₁ => NonEmptyItems.parseLoop T D [first] [] ts₁

instance [Parse T] [Parse D] [LawfulConsuming T] [LawfulConsuming D] :
    Parse (NonEmptyItems T D) := ⟨NonEmptyItems.parse T D⟩

set_option linter.dupNamespace false in
/-- `Items<T, D>` from `src/items/generics.rs`:
`Maybe<NonEmptyItems<T, D>>`. -/
structure Items (T D : Type) where
  inner : Maybe (NonEmptyItems T D)
deriving DecidableEq, Repr

set_option linter.dupNamespace false in
/-- `Items::get`. -/
def Items.get (x : Items T D) : List T :=
  match x.inner.get with
  | some ne => ne.get
  | Option.none => []

set_option linter.dupNamespace false in
def Items.parse (T D : Type) [Parse T] [Parse D]
    [LawfulConsuming T] [LawfulConsuming D] (ts : TokenStream) :
    PResult (Items T D) :=
  match Parse.parse (α := Maybe (NonEmptyItems T D)) ts with
  | PResult.ok m ts' => PResult.ok ⟨m⟩ ts'
  | PResult.error e => PResult.error e
  | PResult.panic => PResult.panic

instance [Parse T] [Parse D] [LawfulConsuming T] [LawfulConsuming D] :
    Parse (Items T D) := ⟨Items.parse T D⟩

end Efmt.Items

namespace Efmt.Items

/-! ## `src/items/macros.rs` -/

/-- `MacroName`: an atom or a variable. -/
structure MacroName where
  inner : Either AtomToken VariableToken
deriving DecidableEq, Repr

/-- `MacroName::value`. -/
def MacroName.value (n : MacroName) : String :=
  match n.inner with
  | Either.a x => x.value
  | Either.b x => x.value

/-- `MacroArg`: a balanced token sequence captured for one macro
argument. -/
structure MacroArg where
  tokens : List Token
deriving DecidableEq, Repr

/-- `Macro`: `?` name, optional parenthesized argument list. -/
structure Macro where
  question : QuestionSymbol
  name : MacroName
  args : Maybe (Parenthesized (Items MacroArg CommaSymbol))
deriving DecidableEq, Repr

/-- `Macro`'s derived `Span`: from the `?` symbol to the end of the
argument list (for an absent list, `Maybe`'s zero-width end position). -/
def Macro.span (m : Macro) : Span :=
  { startPos := m.question.span.startPos
    endPos :=
      match m.args.item with
      | some p => p.close.span.endPos
      | Option.none => m.args.prevTokenEndPosition }

/-- `Macro::expand`'s argument map: `HashMap` collected from
`zip(formal parameter names, captured arguments)`; on duplicate keys the
last insertion wins, so lookup scans the reversed pair list. -/
def hashMapFind (pairs : List (String × MacroArg)) (k : String) :
    Option MacroArg :=
  pairs.reverse.lookup k

/-- `Macro::expand`: substitute captured arguments for parameter
variables in the replacement tokens, then rewrite every resulting
token's span to the macro's (call-site) span. -/
def Macro.expand (m : Macro) (variables_ : Option (List VariableToken))
    (replacement : List Token) : List Token :=
  let args : List (String × MacroArg) :=
    match variables_, (m.args.get).map (fun x => x.item.get) with
    | some vars, some vals => (vars.map (fun x => x.value)).zip vals
    | _, _ => []
  let tokens : List Token :=
    replacement.foldl
      (fun acc token =>
        match token with
        | Token.var x =>
          match hashMapFind args x.value with
          | some a => acc ++ a.tokens
          | Option.none => acc ++ [token]
        | token => acc ++ [token])
      []
  tokens.map (fun t => t.setSpan m.span)

/-- The five nesting counters of `MacroArg::parse` (`struct Level`). -/
structure Level where
  paren : Nat
  brace : Nat
  square : Nat
  bits : Nat
  block : Nat
deriving DecidableEq, Repr

/-- `Level::default()`: all counters zero. -/
def Level.zero : Level := ⟨0, 0, 0, 0, 0⟩

/-- `Level::is_toplevel`: equality with the all-zero default. -/
def Level.isToplevel (l : Level) : Bool := decide (l = Level.zero)

/-- One step of `MacroArg::parse`'s counter update for a token that is
not macro-expanded, peeking into the stream `ts'` positioned after the
token (`fun` lookahead).  `none` models the `todo!()` panic on a closer
whose counter is zero. -/
def levelStep (ts' : TokenStream) (token : Token) (level : Level) :
    Option Level :=
  match token with
  | Token.symbol x =>
    match x.value with
    | Sym.openParen => some { level with paren := level.paren + 1 }
    | Sym.closeParen =>
      if level.paren = 0 then Option.none
      else some { level with paren := level.paren - 1 }
    | Sym.openBrace => some { level with brace := level.brace + 1 }
    | Sym.closeBrace =>
      if level.brace = 0 then Option.none
      else some { level with brace := level.brace - 1 }
    | Sym.openSquare => some { level with square := level.square + 1 }
    | Sym.closeSquare =>
      if level.square = 0 then Option.none
      else some { level with square := level.square - 1 }
    | Sym.doubleLeftAngle => some { level with bits := level.bits + 1 }
    | Sym.doubleRightAngle =>
      if level.bits = 0 then Option.none
      else some { level with bits := level.bits - 1 }
    | _ => some level
  | Token.keyword x =>
    match x.value with
    | Kw.begin_ | Kw.try_ | Kw.case_ | Kw.if_ =>
      some { level with block := level.block + 1 }
    | Kw.fun_ =>
      if ts'.peekSymbolIs Sym.openParen || ts'.peekTokenThenOpenParen then
        some { level with block := level.block + 1 }
      else some level
    | Kw.end_ =>
      if level.block = 0 then Option.none
      else some { level with block := level.block - 1 }
    | _ => some level
  | _ => some level

/-- The capture loop of `MacroArg::parse`: keep reading tokens until the
captured sequence is non-empty, all counters are zero, and the next
token is a top-level `,` or `)`.  Macro-expanded tokens (their start
position is a key of the stream's macro directory) change no counter.
`panic` models the source's `todo!()` on an unbalanced closer. -/
def MacroArg.parseLoop (ts : TokenStream) (tokens : List Token)
    (level : Level) : PResult MacroArg :=
  if !tokens.isEmpty && level.isToplevel && ts.peekCommaOrCloseParen then
    PResult.ok ⟨tokens⟩ ts
  else
    match h : ts.tokens.get? ts.index with
    | Option.none => PResult.error PError.unexpectedEof
    | some token =>
      let ts' : TokenStream := { ts with index := ts.index + 1 }
      if ts.macros.contains token.startPosition then
        MacroArg.parseLoop ts' (tokens ++ [token]) level
      else
        match levelStep ts' token level with
        | Option.none => PResult.panic
        | some level' => MacroArg.parseLoop ts' (tokens ++ [token]) level'
termination_by ts.tokens.length - ts.index
decreasing_by
  all_goals
    have hlt : ts.index < ts.tokens.length := by
      by_contra hge
      rw [List.get?_eq_none.mpr (Nat.le_of_not_lt hge)] at h
      exact Option.noConfusion h
    omega

/-- `MacroArg::parse`: run the capture loop with no tokens captured and
all counters zero. -/
def MacroArg.parse (ts : TokenStream) : PResult MacroArg :=
  MacroArg.parseLoop ts [] Level.zero

instance : Parse MacroArg := ⟨MacroArg.parse⟩

/-- State facts about a successful `MacroArg::parse` capture loop: the
token vector and macro directory are untouched, the cursor moves
monotonically and stays strictly inside the vector (the final peek needs
a next token), and it moves strictly if nothing was captured yet. -/
theorem MacroArg.parseLoop_ok_state :
    ∀ ts (tokens : List Token) (level : Level), ∀ (v : MacroArg) ts₂,
    MacroArg.parseLoop ts tokens level = PResult.ok v ts₂ →
    ts₂.tokens = ts.tokens ∧ ts₂.macros = ts.macros ∧
    ts.index ≤ ts₂.index ∧ ts₂.index < ts.tokens.length ∧
    (tokens.isEmpty → ts.index < ts₂.index) := by
  intro ts tokens level
  induction ts, tokens, level using MacroArg.parseLoop.induct with
  | case1 ts tokens level hcond =>
    intro v ts₂ hok
    rw [MacroArg.parseLoop, if_pos hcond] at hok
    cases hok
    simp only [Bool.and_eq_true, Bool.not_eq_true'] at hcond
    have hsome : ∃ tok, ts.tokens.get? ts.index = some tok := by
      rcases hg : ts.tokens.get? ts.index with - | tok
      · exfalso
        have hpeek := hcond.2
        unfold TokenStream.peekCommaOrCloseParen TokenStream.peekSymbolIs
          at hpeek
        rw [hg] at hpeek
        simp at hpeek
      · exact ⟨tok, rfl⟩
    obtain ⟨tok, hg⟩ := hsome
    obtain ⟨hidx, -⟩ := List.get?_eq_some.mp hg
    refine ⟨rfl, rfl, Nat.le_refl _, hidx, ?_⟩
    intro habs
    rw [habs] at hcond
    exact Bool.noConfusion hcond.1.1
  | case2 ts tokens level hcond h =>
    intro v ts₂ hok
    rw [MacroArg.parseLoop, if_neg hcond, h] at hok
    exact PResult.noConfusion hok
  | case3 ts tokens level hcond token h ts' hmac ih =>
    intro v ts₂ hok
    rw [MacroArg.parseLoop, if_neg hcond, h] at hok
    dsimp only at hok
    rw [if_pos hmac] at hok
    obtain ⟨e1, e2, e3, e4, -⟩ := ih v ts₂ hok
    simp only [ts'] at e1 e2 e3 e4
    exact ⟨e1, e2, by omega, e4, fun _ => by omega⟩
  | case4 ts tokens level hcond token h ts' hmac hstep =>
    intro v ts₂ hok
    rw [MacroArg.parseLoop, if_neg hcond, h] at hok
    dsimp only at hok
    rw [if_neg hmac] at hok
    rw [hstep] at hok
    exact PResult.noConfusion hok
  | case5 ts tokens level hcond token h ts' hmac level' hstep ih =>
    intro v ts₂ hok
    rw [MacroArg.parseLoop, if_neg hcond, h] at hok
    dsimp only at hok
    rw [if_neg hmac] at hok
    rw [hstep] at hok
    obtain ⟨e1, e2, e3, e4, -⟩ := ih v ts₂ hok
    simp only [ts'] at e1 e2 e3 e4
    exact ⟨e1, e2, by omega, e4, fun _ => by omega⟩

instance : LawfulConsuming MacroArg := by
  constructor
  intro ts v ts' hok
  have hfacts := MacroArg.parseLoop_ok_state ts [] Level.zero v ts' hok
  exact ⟨hfacts.2.2.2.2 rfl, Nat.le_of_lt hfacts.2.2.2.1, hfacts.1, hfacts.2.1⟩

theorem parseSymbol_ok_state (s : Sym) (ts : TokenStream) (v : SymbolToken)
    (ts' : TokenStream) (hok : parseSymbol s ts = PResult.ok v ts') :
    ts.index < ts'.index ∧ ts'.index ≤ ts.tokens.length ∧
    ts'.tokens = ts.tokens ∧ ts'.macros = ts.macros := by
  unfold parseSymbol at hok
  rcases hget : ts.tokens.get? ts.index with - | tok <;> rw [hget] at hok
  · exact PResult.noConfusion hok
  · obtain ⟨hidx, -⟩ := List.get?_eq_some.mp hget
    cases tok with
    | symbol st =>
      dsimp only at hok
      by_cases hv : st.value = s
      · rw [if_pos hv] at hok
        cases hok
        exact ⟨Nat.lt_succ_self _, hidx, rfl, rfl⟩
      · rw [if_neg hv] at hok
        exact PResult.noConfusion hok
    | atom t => exact PResult.noConfusion hok
    | var t => exact PResult.noConfusion hok
    | integer t => exact PResult.noConfusion hok
    | string t => exact PResult.noConfusion hok
    | keyword t => exact PResult.noConfusion hok

instance : LawfulConsuming CommaSymbol := by
  constructor
  intro ts v ts' hok
  have hok' : CommaSymbol.parse ts = PResult.ok v ts' := hok
  unfold CommaSymbol.parse at hok'
  rcases heq : parseSymbol Sym.comma ts with ⟨st, ts₁⟩ | e | _ <;> rw [heq] at hok'
  · cases hok'
    exact parseSymbol_ok_state _ _ _ _ heq
  · exact PResult.noConfusion hok'
  · exact PResult.noConfusion hok'

/-- `Macro::parse`: with a declared arity (of any value), parse an
optional parenthesized argument list; with no declared arity, attach no
argument list (`Maybe::none`). -/
def Macro.parse (ts : TokenStream) (question : QuestionSymbol)
    (name : MacroName) (arity : Option Nat) : PResult Macro :=
  match arity with
  | some _arity =>
    match Parse.parse
        (α := Maybe (Parenthesized (Items MacroArg CommaSymbol))) ts with
    | PResult.ok args ts' => PResult.ok ⟨question, name, args⟩ ts'
    | PResult.error e => PResult.error e
    | PResult.panic => PResult.panic
  | Option.none =>
    PResult.ok ⟨question, name, Maybe.none ts _⟩ ts

end Efmt.Items

namespace Efmt.Cst

open Efmt

/-! ## `src/cst/expressions.rs`: alternation with deepest-error retention

The `TokenReader` of this (older) parser layer and the leaf node types
of `cst/common.rs` are not under `src/`; they are modelled from the spec
(§4.1): `try_parse` runs a parse routine inside a transaction, rolling
the cursor back silently on failure and recording the failure so that
`take_last_error` can return the deepest-reaching error (the one whose
cursor index was highest). -/

/-- Error kinds of the cst parser layer; `unreachablePanic` models the
`.expect("unreachable")` panic when `take_last_error` finds nothing. -/
inductive CError where
  | unexpectedEof
  | unexpectedToken
  | unreachablePanic
deriving DecidableEq, Repr

/-- Modelled from the spec: `TokenReader` — token vector, cursor, and
the deepest recorded error as a (cursor index at failure, error) pair. -/
structure TokenReader where
  tokens : List Token
  index : Nat
  lastError : Option (Nat × CError)
deriving DecidableEq, Repr

/-- `TokenReader::read_token`. -/
def TokenReader.readToken (r : TokenReader) : Except CError Token × TokenReader :=
  match r.tokens.get? r.index with
  | some t => (Except.ok t, { r with index := r.index + 1 })
  | Option.none => (Except.error CError.unexpectedEof, r)

/-- Keep the deeper of the recorded error and a new failure (on a depth
tie the earlier record is kept). -/
def recordErr (old : Option (Nat × CError)) (idx : Nat) (e : CError) :
    Option (Nat × CError) :=
  match old with
  | Option.none => some (idx, e)
  | some (i, e₀) => if idx > i then some (idx, e) else some (i, e₀)

/-- Modelled from the spec: `try_parse` — run a parse routine inside a
transaction; on failure restore the cursor, record the error at the
failure's cursor index, and return "absent". -/
def tryParse (p : TokenReader → Except CError α × TokenReader)
    (r : TokenReader) : Option α × TokenReader :=
  match p r with
  | (Except.ok v, r') => (some v, r')
  | (Except.error e, r') =>
    (Option.none, { r with lastError := recordErr r.lastError r'.index e })

/-- Modelled from the spec: `take_last_error` — yield (and clear) the
deepest-reaching recorded error. -/
def TokenReader.takeLastError (r : TokenReader) :
    Option (Nat × CError) × TokenReader :=
  (r.lastError, { r with lastError := Option.none })

/-- `cst/common.rs`'s `Atom` node (modelled from the spec: an atom
token). -/
structure Atom where
  token : AtomToken
deriving DecidableEq, Repr

/-- `cst/common.rs`'s `Variable` node (modelled from the spec). -/
structure Variable where
  token : VariableToken
deriving DecidableEq, Repr

/-- `cst/common.rs`'s `String` node (named `StringNode` here; modelled
from the spec: juxtaposed string tokens concatenate). -/
structure StringNode where
  tokens : List StringToken
deriving DecidableEq, Repr

/-- Modelled from the spec: `Atom::parse` — read one token and require
an atom. -/
def Atom.parse (r : TokenReader) : Except CError Atom × TokenReader :=
  match r.readToken with
  | (Except.ok (Token.atom t), r') => (Except.ok ⟨t⟩, r')
  | (Except.ok _, r') => (Except.error CError.unexpectedToken, r')
  | (Except.error e, r') => (Except.error e, r')

/-- Modelled from the spec: `Variable::parse`. -/
def Variable.parse (r : TokenReader) : Except CError Variable × TokenReader :=
  match r.readToken with
  | (Except.ok (Token.var t), r') => (Except.ok ⟨t⟩, r')
  | (Except.ok _, r') => (Except.error CError.unexpectedToken, r')
  | (Except.error e, r') => (Except.error e, r')

/-- Greedily take further juxtaposed string tokens starting at `i`,
returning them and the index after the run. -/
def takeStringTokens (tokens : List Token) (i : Nat) :
    List StringToken × Nat :=
  match h : tokens.get? i with
  | some (Token.string t) =>
    let res := takeStringTokens tokens (i + 1)
    (t :: res.1, res.2)
  | _ => ([], i)
termination_by tokens.length - i
decreasing_by
  have hlt : i < tokens.length := by
    by_contra hge
    rw [List.get?_eq_none.mpr (Nat.le_of_not_lt hge)] at h
    exact Option.noConfusion h
  omega

/-- Modelled from the spec: `String::parse` — one string token, then any
further juxtaposed string tokens. -/
def StringNode.parse (r : TokenReader) :
    Except CError StringNode × TokenReader :=
  match r.readToken with
  | (Except.ok (Token.string t), r') =>
    let res := takeStringTokens r'.tokens r'.index
    (Except.ok ⟨t :: res.1⟩, { r' with index := res.2 })
  | (Except.ok _, r') => (Except.error CError.unexpectedToken, r')
  | (Except.error e, r') => (Except.error e, r')

/-- `src/cst/expressions.rs`'s `Expr`. -/
inductive Expr where
  | atom (x : Atom)
  | var (x : Variable)
  | string (x : StringNode)
deriving DecidableEq, Repr

/-- `Expr::parse` from `src/cst/expressions.rs`: try `Atom`, then
`Variable`, then `String`, each under `try_parse`; if all fail, return
`take_last_error()` (whose absence is the `expect("unreachable")`
panic, modelled as `unreachablePanic`).  Errors are returned with the
cursor index they were recorded at. -/
def Expr.parse (r : TokenReader) : Except (Nat × CError) Expr × TokenReader :=
  match tryParse Atom.parse r with
  | (some x, r₁) => (Except.ok (Expr.atom x), r₁)
  | (Option.none, r₁) =>
    match tryParse Variable.parse r₁ with
    | (some x, r₂) => (Except.ok (Expr.var x), r₂)
    | (Option.none, r₂) =>
      match tryParse StringNode.parse r₂ with
      | (some x, r₃) => (Except.ok (Expr.string x), r₃)
      | (Option.none, r₃) =>
        match r₃.takeLastError with
        | (some e, r₄) => (Except.error e, r₄)
        | (Option.none, r₄) =>
          (Except.error (r₄.index, CError.unreachablePanic), r₄)

end Efmt.Cst

namespace Efmt.Fmt

open Efmt Efmt.Items

/-! ## `src/items/generics.rs`: `Elements` packing vs per-line layout

The formatter engine (`src/format.rs`) is not under `src/`; its
primitives are modelled from the spec (§4.5): a column-aware buffer with
pending whitespace (`needs_space` / `needs_newline`, a pending newline
overriding a pending space), an indent column for continuation lines,
and a `multiline_mode` flag whose `is_recommended()` the item-list
renderer consults.  `NonEmptyItems::format`, `Elements::format` and
`Elements::format_packed_items` are translated from
`src/items/generics.rs`. -/

/-- Pending whitespace to flush before the next written text. -/
inductive Pending where
  | nothing
  | space
  | newline
deriving DecidableEq, Repr

/-- Modelled from the spec: formatter state — column budget, current
indent (base column for continuation lines), multiline recommendation,
current column, and the output buffer. -/
structure Formatter where
  maxColumns : Nat
  indent : Nat
  multiline : Bool
  currentColumn : Nat
  pending : Pending
  buf : String
deriving DecidableEq, Repr

/-- `fmt.max_columns()`. -/
def Formatter.maxColumnsGet (f : Formatter) : Nat := f.maxColumns

/-- `fmt.multiline_mode().is_recommended()`. -/
def Formatter.multilineIsRecommended (f : Formatter) : Bool := f.multiline

/-- `fmt.needs_space()`: request a space before the next text (a pending
newline takes precedence). -/
def Formatter.needsSpace (f : Formatter) : Formatter :=
  match f.pending with
  | Pending.newline => f
  | _ => { f with pending := Pending.space }

/-- `fmt.needs_newline()`: request a newline (plus re-indent) before the
next text. -/
def Formatter.needsNewline (f : Formatter) : Formatter :=
  { f with pending := Pending.newline }

/-- Write text (no newlines inside): flush pending whitespace, append,
and advance the column. -/
def Formatter.write (f : Formatter) (s : String) : Formatter :=
  match f.pending with
  | Pending.nothing =>
    { f with buf := f.buf ++ s
             currentColumn := f.currentColumn + s.length
             pending := Pending.nothing }
  | Pending.space =>
    { f with buf := f.buf ++ " " ++ s
             currentColumn := f.currentColumn + 1 + s.length
             pending := Pending.nothing }
  | Pending.newline =>
    { f with buf := f.buf ++ "\n" ++ String.mk (List.replicate f.indent ' ') ++ s
             currentColumn := f.indent + s.length
             pending := Pending.nothing }

/-- A formatter item (the `Format` capability plus the `len` and
`is_primitive` accessors the packing logic reads). -/
class FmtItem (α : Type) where
  text : α → String
  primitive : α → Bool

/-- `item.len()`. -/
def itemLen [FmtItem α] (x : α) : Nat := (FmtItem.text x).length

/-- `item.is_primitive()`. -/
def isPrimitive [FmtItem α] (x : α) : Bool := FmtItem.primitive x

/-- `fmt.format_item(item)`: write the item's text. -/
def formatItem [FmtItem α] (f : Formatter) (x : α) : Formatter :=
  f.write (FmtItem.text x)

/-- A concrete item type instantiating the generic `Elements<T>` logic:
a rendered text plus its primitiveness classification. -/
structure ElemItem where
  text : String
  primitive : Bool
deriving DecidableEq, Repr

instance : FmtItem ElemItem := ⟨ElemItem.text, ElemItem.primitive⟩

/-- The comma delimiter as a formatter item. -/
instance : FmtItem CommaSymbol := ⟨fun _ => ",", fun _ => true⟩

/-- One (item, delimiter) pair of `NonEmptyItems::format`: the item,
its delimiter, then a newline request when the multiline mode is
recommended and a space request otherwise. -/
def itemPairStep [FmtItem T] [FmtItem D] (f : Formatter) (p : T × D) :
    Formatter :=
  let f := formatItem f p.1
  let f := formatItem f p.2
  if f.multilineIsRecommended then f.needsNewline else f.needsSpace

/-- `NonEmptyItems::format` (`src/items/generics.rs` lines 137—151):
after each non-final item and its delimiter, request a newline when the
multiline mode is recommended and a space otherwise; then the last
item. -/
def nonEmptyItemsFormat [FmtItem T] [FmtItem D]
    (x : NonEmptyItems T D) (f : Formatter) : Formatter :=
  let f := (x.items.zip x.delimiters).foldl itemPairStep f
  match x.items.getLast? with
  | some item => formatItem f item
  | Option.none => f

/-- `Maybe<NonEmptyItems<T, D>>`'s (i.e. `Items`') format: absent emits
nothing. -/
def itemsFormat [FmtItem T] [FmtItem D]
    (x : Items T D) (f : Formatter) : Formatter :=
  match x.inner.get with
  | some ne => nonEmptyItemsFormat ne f
  | Option.none => f

/-- `src/items/generics.rs`'s `Elements<T>`: `Items<T>` with the packing
heuristic. -/
structure Elements (T : Type) where
  inner : Items T CommaSymbol
deriving DecidableEq, Repr

/-- `Elements::format_packed_items` (`src/items/generics.rs` lines
170—195): paragraph fill — before a non-first item, insert a newline
when the current column plus the item's length (plus the delimiter's
length, for non-final items) exceeds `max_columns`. -/
def formatPackedItems [FmtItem T] (x : Elements T) (f : Formatter) :
    Formatter :=
  match x.inner.inner.get with
  | Option.none => f
  | some ne =>
    let items := ne.items
    let delimiters := ne.delimiters
    let step := (items.zip delimiters).foldl
      (fun p q =>
        let f := p.1
        let first := p.2
        let f :=
          if !first &&
              decide (f.currentColumn + itemLen q.1 + itemLen q.2 >
                f.maxColumnsGet) then
            f.needsNewline
          else f
        let f := formatItem f q.1
        let f := formatItem f q.2
        (f.needsSpace, false))
      (f, true)
    match items.getLast? with
    | Option.none => step.1
    | some item =>
      let f := step.1
      let first := step.2
      let f :=
        if !first &&
            decide (f.currentColumn + itemLen item > f.maxColumnsGet) then
          f.needsNewline
        else f
      formatItem f item

/-- Width of the widest line of a buffer. -/
def maxLineWidthAux (cs : List Char) (cur best : Nat) : Nat :=
  match cs with
  | [] => max best cur
  | c :: rest =>
    if c = '\n' then maxLineWidthAux rest 0 (max best cur)
    else maxLineWidthAux rest (cur + 1) best

def maxLineWidth (s : String) : Nat := maxLineWidthAux s.data 0 0

/-- Modelled from the spec: `with_subregion` with
`IndentMode::CurrentColumn` and a trailing reserve — set the indent to
the current column, dry-run the body in packed (non-multiline) mode,
and if the dry run's own lines (the first continuing from the current
column) overflow `max_columns`, or its last line cannot also hold the
trailing reserve, rewind and re-run the body with the multiline mode
recommended; the caller's indent and multiline mode are restored. -/
def withSubregion (trailing : Nat) (body : Formatter → Formatter)
    (f : Formatter) : Formatter :=
  let entry := { f with indent := f.currentColumn, multiline := false }
  let dry := body entry
  let suffix := String.mk (dry.buf.data.drop f.buf.data.length)
  let fits :=
    decide (maxLineWidth
        (String.mk (List.replicate f.currentColumn ' ') ++ suffix) ≤
      f.maxColumns) &&
    decide (dry.currentColumn + trailing ≤ f.maxColumns)
  let result := if fits then dry else body { entry with multiline := true }
  { result with indent := f.indent, multiline := f.multiline }

/-- `Elements::format` (`src/items/generics.rs` lines 198—214): inside a
current-column subregion with a trailing reserve of 1, use the packed
paragraph fill exactly when every item is primitive, and the default
item-list rendering otherwise. -/
def elementsFormat [FmtItem T] (x : Elements T) (f : Formatter) :
    Formatter :=
  withSubregion 1
    (fun f =>
      let packed := (x.inner.get).all (fun it => isPrimitive it)
      if packed then formatPackedItems x f else itemsFormat x.inner f)
    f

end Efmt.Fmt

namespace Efmt.Rec

open Efmt Efmt.Fmt

/-! ## `src/items/expressions/records.rs`: record access/update spacing

The full `Expr` type (`src/items/expressions.rs`) is not under `src/`;
the variants relevant to `is_integer_token` are modelled from the spec
and the module's own tests (`"0 #foo.bar"`, `"88 #foo{}"`). -/

/-- Modelled from the spec: the left-value expression of a record
access/update — an integer literal token or some other leaf. -/
inductive RExpr where
  | integer (t : IntegerToken)
  | atom (t : AtomToken)
  | var (t : VariableToken)
deriving DecidableEq, Repr

/-- Modelled from the spec: `Expr::is_integer_token` — the expression is
an integer literal token. -/
def RExpr.isIntegerToken : RExpr → Bool
  | RExpr.integer _ => true
  | _ => false

/-- A leaf expression writes its source text. -/
def RExpr.format (e : RExpr) (f : Formatter) : Formatter :=
  match e with
  | RExpr.integer t => f.write (Nat.repr t.value)
  | RExpr.atom t => f.write t.value
  | RExpr.var t => f.write t.value

/-- The source text a leaf expression emits. -/
def RExpr.text : RExpr → String
  | RExpr.integer t => Nat.repr t.value
  | RExpr.atom t => t.value
  | RExpr.var t => t.value

/-- `fmt.write_space()`. -/
def writeSpace (f : Formatter) : Formatter := f.write " "

/-- `RecordIndexExpr`: `#` name `.` field. -/
structure RecordIndexExpr where
  name : AtomToken
  field : AtomToken
deriving DecidableEq, Repr

/-- `RecordIndexExpr`'s derived format: `#`, name, `.`, field. -/
def RecordIndexExpr.format (x : RecordIndexExpr) (f : Formatter) :
    Formatter :=
  (((f.write "#").write x.name.value).write ".").write x.field.value

/-- `RecordAccessExpr`: value `#` name `.` field. -/
structure RecordAccessExpr where
  value : RExpr
  index : RecordIndexExpr
deriving DecidableEq, Repr

/-- `RecordAccessExpr::format` (`src/items/expressions/records.rs` lines
63—72): the value, a space only when the value is an integer token, then
the index. -/
def RecordAccessExpr.format (x : RecordAccessExpr) (f : Formatter) :
    Formatter :=
  let f := x.value.format f
  let f := if x.value.isIntegerToken then writeSpace f else f
  x.index.format f

/-- A record field (`$FIELD = Expr`); the `TupleLike` machinery is not
under `src/`, so fields render as name ` = ` value (modelled from the
spec; irrelevant to the spacing under verification). -/
structure RecordField where
  name : String
  value : RExpr
deriving DecidableEq, Repr

def RecordField.format (x : RecordField) (f : Formatter) : Formatter :=
  x.value.format ((f.write x.name).write " = ")

/-- Modelled from the spec: `TupleLike<RecordField>`'s single-line
rendering: `{` fields `}` with `, ` between fields. -/
def tupleLikeFormat (fields : List RecordField) (f : Formatter) :
    Formatter :=
  let f := f.write "\x7b"
  let f :=
    match fields with
    | [] => f
    | x :: rest =>
      rest.foldl (fun f y => RecordField.format y (f.write ", ")) (RecordField.format x f)
  f.write "\x7d"

/-- `RecordUpdateExpr`: value `#` name `{` fields `}`. -/
structure RecordUpdateExpr where
  value : RExpr
  name : AtomToken
  fields : List RecordField
deriving DecidableEq, Repr

/-- `RecordUpdateExpr::format` (`src/items/expressions/records.rs` lines
110—121): the value, a space only for an integer-token value, then `#`,
the record name, and the fields. -/
def RecordUpdateExpr.format (x : RecordUpdateExpr) (f : Formatter) :
    Formatter :=
  let f := x.value.format f
  let f := if x.value.isIntegerToken then writeSpace f else f
  let f := f.write "#"
  let f := f.write x.name.value
  tupleLikeFormat x.fields f

end Efmt.Rec

namespace Efmt.Layout

open Efmt.Fmt

/-! ## The `format_text` pipeline on the catch/call/operator fragment

The driver, parser and per-node `Format` implementations for `catch`
expressions, function calls and `+` chains (`src/format.rs`,
`src/items/styles.rs`, `src/items/expressions.rs` and the call/operator
modules) are not under `src/`.  Following the spec they are modelled
here for the fragment scenario S6 exercises: `format_text` is lex →
parse → format; `CatchExpr` is a right-spaced `catch` keyword followed
by a column-indented expression; call arguments live in a
current-column subregion with a trailing reserve of one column
(`Parenthesized`, `src/items/generics.rs` lines 84—96) and are
separated by `,` plus newline in multiline mode and space otherwise
(`NonEmptyItems::format`); a `+` chain packs operands like paragraph
words, the operator staying on the previous line, breaking to the
region's indent column when the next operand would overflow
`max_columns`. -/

/-- Lexical tokens of the fragment. -/
inductive LTok where
  | atom (s : String)
  | var (s : String)
  | int (s : String)
  | catchKw
  | lparen
  | rparen
  | comma
  | plus
deriving DecidableEq, Repr

def isLowerCh (c : Char) : Bool := 'a' ≤ c && c ≤ 'z'
def isUpperCh (c : Char) : Bool := 'A' ≤ c && c ≤ 'Z'
def isDigitCh (c : Char) : Bool := '0' ≤ c && c ≤ '9'
def isAlnumCh (c : Char) : Bool := isLowerCh c || isUpperCh c || isDigitCh c

/-- Lexer state: between tokens, or inside an alphanumeric run. -/
inductive LexSt where
  | clean
  | run (cs : List Char)
deriving DecidableEq, Repr

/-- Classify a maximal alphanumeric run: all digits → integer, leading
lowercase → atom (`catch` → keyword), leading uppercase → variable. -/
def classifyRun (cs : List Char) : Option LTok :=
  if cs.isEmpty || !cs.all isAlnumCh then Option.none
  else if cs.all isDigitCh then some (LTok.int (String.mk cs))
  else
    match cs with
    | c :: _ =>
      if isLowerCh c then
        if String.mk cs = "catch" then some LTok.catchKw
        else some (LTok.atom (String.mk cs))
      else if isUpperCh c then some (LTok.var (String.mk cs))
      else Option.none
    | [] => Option.none

/-- Emit the pending run, if any. -/
def LexSt.flush : LexSt → Option (List LTok)
  | LexSt.clean => some []
  | LexSt.run cs => (classifyRun cs).map (fun t => [t])

/-- One lexer step. -/
def lexStep (st : LexSt) (c : Char) : Option (List LTok × LexSt) :=
  if isAlnumCh c then
    match st with
    | LexSt.clean => some ([], LexSt.run [c])
    | LexSt.run cs => some ([], LexSt.run (cs ++ [c]))
  else
    match st.flush with
    | Option.none => Option.none
    | some fl =>
      if c = ' ' || c = '\n' then some (fl, LexSt.clean)
      else if c = '(' then some (fl ++ [LTok.lparen], LexSt.clean)
      else if c = ')' then some (fl ++ [LTok.rparen], LexSt.clean)
      else if c = ',' then some (fl ++ [LTok.comma], LexSt.clean)
      else if c = '+' then some (fl ++ [LTok.plus], LexSt.clean)
      else Option.none

/-- Fold the lexer over a character list. -/
def lexFold (cs : List Char) (st : LexSt) : Option (List LTok × LexSt) :=
  match cs with
  | [] => some ([], st)
  | c :: rest =>
    match lexStep st c with
    | Option.none => Option.none
    | some (t₁, st₁) =>
      match lexFold rest st₁ with
      | Option.none => Option.none
      | some (t₂, st₂) => some (t₁ ++ t₂, st₂)

/-- Modelled from the spec: the external lexical layer for the
fragment's character set. -/
def tokenize (s : String) : Option (List LTok) :=
  match lexFold s.data LexSt.clean with
  | Option.none => Option.none
  | some (ts, st) =>
    match st.flush with
    | Option.none => Option.none
    | some fl => some (ts ++ fl)

/-- CST of the fragment: leaves, calls, `+` chains (first operand plus
one `+`-prefixed operand per list entry) and `catch`. -/
inductive LExpr where
  | atom (s : String)
  | var (s : String)
  | int (s : String)
  | call (name : String) (args : List LExpr)
  | binop (first : LExpr) (rest : List LExpr)
  | catchE (e : LExpr)

mutual

/-- The token sequence a CST node covers. -/
def cstTokens : LExpr → List LTok
  | LExpr.atom s => [LTok.atom s]
  | LExpr.var s => [LTok.var s]
  | LExpr.int s => [LTok.int s]
  | LExpr.call n args =>
    LTok.atom n :: LTok.lparen :: (cstTokensArgs args ++ [LTok.rparen])
  | LExpr.binop first rest =>
    cstTokens first ++ cstTokensChain rest
  | LExpr.catchE e => LTok.catchKw :: cstTokens e

/-- Comma-separated argument token sequences. -/
def cstTokensArgs : List LExpr → List LTok
  | [] => []
  | [a] => cstTokens a
  | a :: rest => cstTokens a ++ LTok.comma :: cstTokensArgs rest

/-- `+`-prefixed operand token sequences. -/
def cstTokensChain : List LExpr → List LTok
  | [] => []
  | t :: rest => LTok.plus :: cstTokens t ++ cstTokensChain rest

end

mutual

/-- Modelled from the spec: the recursive-descent parser of the
fragment — a non-left-recursive base, a call resume on an atom head,
and a `+` chain resume; `catch` binds a whole trailing expression. -/
def parseT : Nat → List LTok → Option (LExpr × List LTok)
  | 0, _ => Option.none
  | Nat.succ fuel, ts =>
    match ts with
    | LTok.atom s :: LTok.lparen :: LTok.rparen :: r =>
      some (LExpr.call s [], r)
    | LTok.atom s :: LTok.lparen :: r =>
      match parseArgs fuel r with
      | some (args, r') => some (LExpr.call s args, r')
      | Option.none => Option.none
    | LTok.atom s :: r => some (LExpr.atom s, r)
    | LTok.var s :: r => some (LExpr.var s, r)
    | LTok.int s :: r => some (LExpr.int s, r)
    | _ => Option.none

/-- One or more comma-separated arguments followed by `)` (the `)` is
consumed). -/
def parseArgs : Nat → List LTok → Option (List LExpr × List LTok)
  | 0, _ => Option.none
  | Nat.succ fuel, ts =>
    match parseB fuel ts with
    | Option.none => Option.none
    | some (e, r) =>
      match r with
      | LTok.comma :: r' =>
        match parseArgs fuel r' with
        | some (es, r'') => some (e :: es, r'')
        | Option.none => Option.none
      | LTok.rparen :: r' => some ([e], r')
      | _ => Option.none

/-- A `+` chain: a term, then zero or more `+` terms. -/
def parseB : Nat → List LTok → Option (LExpr × List LTok)
  | 0, _ => Option.none
  | Nat.succ fuel, ts =>
    match parseT fuel ts with
    | Option.none => Option.none
    | some (t₀, r) => parseChain fuel t₀ [] r

def parseChain : Nat → LExpr → List LExpr → List LTok →
    Option (LExpr × List LTok)
  | 0, _, _, _ => Option.none
  | Nat.succ fuel, first, acc, ts =>
    match ts with
    | LTok.plus :: ts' =>
      match parseT fuel ts' with
      | some (t, r) => parseChain fuel first (acc ++ [t]) r
      | Option.none => Option.none
    | _ =>
      if acc.isEmpty then some (first, ts)
      else some (LExpr.binop first acc, ts)

/-- Top-level expression: `catch` chains, else a `+` chain. -/
def parseE : Nat → List LTok → Option (LExpr × List LTok)
  | 0, _ => Option.none
  | Nat.succ fuel, ts =>
    match ts with
    | LTok.catchKw :: ts' =>
      match parseE fuel ts' with
      | some (e, r) => some (LExpr.catchE e, r)
      | Option.none => Option.none
    | _ => parseB fuel ts

end

mutual

/-- The width of a node's single-line (packed) rendering. -/
def oneLineLen : LExpr → Nat
  | LExpr.atom s => s.length
  | LExpr.var s => s.length
  | LExpr.int s => s.length
  | LExpr.call n args => n.length + 1 + oneLineLenArgs args + 1
  | LExpr.binop first rest => oneLineLen first + oneLineLenChain rest
  | LExpr.catchE e => 6 + oneLineLen e

def oneLineLenArgs : List LExpr → Nat
  | [] => 0
  | [a] => oneLineLen a
  | a :: rest => oneLineLen a + 2 + oneLineLenArgs rest

def oneLineLenChain : List LExpr → Nat
  | [] => 0
  | t :: rest => 3 + oneLineLen t + oneLineLenChain rest

end

mutual

/-- Modelled from the spec: the fragment's `Format` implementations.
`catch` writes its right-spaced keyword and column-indents its
expression; a call writes the callee, `(`, its arguments in a
current-column subregion with one trailing column reserved, and `)`;
a `+` chain packs operands, the operator trailing the previous line,
with a break to the indent column when the next operand (after one
separating space) would overflow `max_columns`. -/
def fmtE : LExpr → Formatter → Formatter
  | LExpr.atom s, f => f.write s
  | LExpr.var s, f => f.write s
  | LExpr.int s, f => f.write s
  | LExpr.call n args, f =>
    let f := f.write n
    let f := f.write "("
    let f := withSubregion 1 (fun f => fmtArgs args f) f
    f.write ")"
  | LExpr.binop first rest, f => fmtChain rest (fmtE first f)
  | LExpr.catchE e, f =>
    let f := f.write "catch "
    let saved := f.indent
    let f := fmtE e { f with indent := f.currentColumn }
    { f with indent := saved }

/-- `NonEmptyItems::format` for call arguments: after each non-final
argument and its comma, a newline in multiline(recommended) mode and a
space otherwise. -/
def fmtArgs : List LExpr → Formatter → Formatter
  | [], f => f
  | [a], f => fmtE a f
  | a :: rest, f =>
    let f := fmtE a f
    let f := f.write ","
    let f := if f.multiline then f.needsNewline else f.needsSpace
    fmtArgs rest f

def fmtChain : List LExpr → Formatter → Formatter
  | [], f => f
  | t :: rest, f =>
    let f := f.write " +"
    let f :=
      if decide (f.currentColumn + 1 + oneLineLen t > f.maxColumns) then
        f.needsNewline
      else f.needsSpace
    fmtChain rest (fmtE t f)

end

/-- The initial formatter state of a `format_text` job. -/
def initFormatter (maxCols : Nat) : Formatter :=
  { maxColumns := maxCols
    indent := 0
    multiline := false
    currentColumn := 0
    pending := Pending.nothing
    buf := "" }

/-- Modelled from the spec: `format_text` — lex, parse a complete
expression, format. -/
def formatText (maxCols : Nat) (src : String) : Option String :=
  match tokenize src with
  | Option.none => Option.none
  | some toks =>
    match parseE (4 * toks.length + 4) toks with
    | some (e, []) => some ((fmtE e (initFormatter maxCols)).buf)
    | _ => Option.none

end Efmt.Layout

namespace Efmt.Items

/-- Whether a parse result is a success. -/
def PResult.isOk : PResult α → Bool
  | PResult.ok _ _ => true
  | _ => false

/-- Declarative counterpart of the capture loop's counter evolution: run
the five counters over the `n` tokens starting at vector position `i`,
skipping macro-expanded tokens (their start position is a key of the
macro directory) and peeking after the current token for the `fun`
lookahead; `none` is a counter underflow. -/
def runLevelAux (ts : TokenStream) (i n : Nat) (level : Level) :
    Option Level :=
  match n with
  | 0 => some level
  | Nat.succ m =>
    match ts.tokens.get? i with
    | Option.none => Option.none
    | some token =>
      if ts.macros.contains token.startPosition then
        runLevelAux ts (i + 1) m level
      else
        match levelStep { ts with index := i + 1 } token level with
        | Option.none => Option.none
        | some level' => runLevelAux ts (i + 1) m level'

/-- The substitution described by the spec's own words, for one
replacement token: a variable token whose name equals a formal
parameter becomes that parameter's captured argument token sequence
verbatim; any other token stays. -/
def substPerClaim (params : List VariableToken) (vals : List MacroArg)
    (token : Token) : List Token :=
  match token with
  | Token.var x =>
    match ((params.map (fun p => p.value)).zip vals).lookup x.value with
    | some a => a.tokens
    | Option.none => [token]
  | t => [t]

/-- The `?FOO(a, b)` argument tokens: `(`, `a`, `,`, `b`, `)`. -/
def toks6 : List Token :=
  [Token.symbol ⟨Sym.openParen, ⟨0, 1⟩⟩, Token.atom ⟨"a", ⟨1, 2⟩⟩,
   Token.symbol ⟨Sym.comma, ⟨2, 3⟩⟩, Token.atom ⟨"b", ⟨3, 4⟩⟩,
   Token.symbol ⟨Sym.closeParen, ⟨4, 5⟩⟩]

/-- The `Macro` node `Macro::parse` builds for `?FOO(a, b)` (two
captured arguments). -/
def mac6 : Macro :=
  ⟨⟨⟨0, 0⟩⟩, ⟨Either.a ⟨"FOO", ⟨0, 0⟩⟩⟩,
   ⟨some ⟨⟨⟨0, 1⟩⟩,
     ⟨⟨some ⟨[⟨[Token.atom ⟨"a", ⟨1, 2⟩⟩]⟩, ⟨[Token.atom ⟨"b", ⟨3, 4⟩⟩]⟩],
       [⟨⟨2, 3⟩⟩]⟩, 1, 1⟩⟩,
     ⟨⟨4, 5⟩⟩⟩, 0, 0⟩⟩

end Efmt.Items

namespace Efmt.Fmt

/-- A two-item element list whose items are not primitive (for example
two short call subtrees), and a fresh formatter with a wide budget. -/
def elemCx : Elements ElemItem :=
  ⟨⟨⟨some ⟨[⟨"a()", false⟩, ⟨"b()", false⟩], [⟨⟨0, 0⟩⟩]⟩, 0, 0⟩⟩⟩

def fmtCx : Formatter :=
  { maxColumns := 100
    indent := 0
    multiline := false
    currentColumn := 0
    pending := Pending.nothing
    buf := "" }

/-- Number of newline characters in a buffer. -/
def countNewlines (s : String) : Nat := s.data.count '\n'

end Efmt.Fmt

namespace Efmt.Layout

/-- The lexer, run from a clean state over `w`, emits exactly `toks`
once the final pending run is flushed. -/
def EmitsGood (w : String) (toks : List LTok) : Prop :=
  ∃ t₀ st fl, lexFold w.data LexSt.clean = some (t₀, st) ∧
    st.flush = some fl ∧ t₀ ++ fl = toks

/-- The lexer, run from a clean state over `w`, emits exactly `toks`
and ends between tokens (nothing pending). -/
def EmitsC (w : String) (toks : List LTok) : Prop :=
  lexFold w.data LexSt.clean = some (toks, LexSt.clean)

/-- Token-text validity: the text of every name/integer token is a run
the lexer classifies back to that token. -/
def tokWf : LTok → Bool
  | LTok.atom s => decide (classifyRun s.data = some (LTok.atom s))
  | LTok.var s => decide (classifyRun s.data = some (LTok.var s))
  | LTok.int s => decide (classifyRun s.data = some (LTok.int s))
  | _ => true

/-- A term: a node the non-left-recursive base plus call resume can
produce (an operand of a `+` chain). -/
def isTerm : LExpr → Bool
  | LExpr.atom _ => true
  | LExpr.var _ => true
  | LExpr.int _ => true
  | LExpr.call _ _ => true
  | _ => false

/-- A `+`-chain-level node (anything but a bare `catch`). -/
def isBLevel : LExpr → Bool
  | LExpr.catchE _ => false
  | _ => true

mutual

/-- Well-formed CST: token texts lex back to themselves, `+` chains are
non-trivial with term operands, call arguments are chain-level. -/
def wfE : LExpr → Bool
  | LExpr.atom s => tokWf (LTok.atom s)
  | LExpr.var s => tokWf (LTok.var s)
  | LExpr.int s => tokWf (LTok.int s)
  | LExpr.call n args => tokWf (LTok.atom n) && wfArgs args
  | LExpr.binop first rest =>
    wfE first && isTerm first && !rest.isEmpty && wfChain rest
  | LExpr.catchE e => wfE e

def wfArgs : List LExpr → Bool
  | [] => true
  | a :: rest => wfE a && isBLevel a && wfArgs rest

def wfChain : List LExpr → Bool
  | [] => true
  | t :: rest => wfE t && isTerm t && wfChain rest

end

/-- The pending-whitespace text the next `write` flushes. -/
def pendStr (f : Efmt.Fmt.Formatter) : String :=
  match f.pending with
  | Efmt.Fmt.Pending.nothing => ""
  | Efmt.Fmt.Pending.space => " "
  | Efmt.Fmt.Pending.newline => "\n" ++ String.mk (List.replicate f.indent ' ')

/-- A remainder a term may be followed by: anything not starting with
`(` (which would have extended the term into a call). -/
def noLParenHead : List LTok → Bool
  | LTok.lparen :: _ => false
  | _ => true

/-- A remainder a chain-level expression may be followed by: end of
input, a `,` or a `)` — never a token extending the expression. -/
def stopToks : List LTok → Bool
  | [] => true
  | LTok.comma :: _ => true
  | LTok.rparen :: _ => true
  | _ => false

end Efmt.Layout

namespace Efmt.Rec

/-- The text `RecordIndexExpr::format` emits. -/
def RecordIndexExpr.text (x : RecordIndexExpr) : String :=
  "#" ++ x.name.value ++ "." ++ x.field.value

/-- The text a record field emits. -/
def RecordField.text (x : RecordField) : String :=
  x.name ++ " = " ++ x.value.text

/-- The text `TupleLike<RecordField>` emits. -/
def tupleLikeText (fields : List RecordField) : String :=
  "\x7b" ++
    (match fields with
     | [] => ""
     | x :: rest =>
       rest.foldl (fun acc y => acc ++ ", " ++ y.text) x.text) ++
    "\x7d"

end Efmt.Rec

/-! ## Claim theorems -/

namespace Efmt.Lex

/-- C4: running a parse routine inside `with_transaction` is atomic with
respect to the cursor: on failure the cursor is restored to the exact
pre-call index (the token vector is whatever the routine left) and the
routine's error is returned unchanged; on success the cursor stays
where the routine left it and its result is returned. -/
theorem withTransaction_atomic (T : Type)
    (f : Lexer → Except LError T × Lexer) (l : Lexer) :
    (∀ x l', f l = (Except.ok x, l') → l.withTransaction f = (Except.ok x, l')) ∧
    (∀ e l', f l = (Except.error e, l') →
      l.withTransaction f = (Except.error e, { l' with index := l.index })) := by
  constructor
  · intro x l' h
    unfold Lexer.withTransaction
    rw [h]
  · intro e l' h
    unfold Lexer.withTransaction
    rw [h]

/-- Witness for C4: a successful `read_token` keeps the advanced cursor;
a failing one (at end of input) restores the pre-call index. -/
theorem withTransaction_atomic_witness :
    (Lexer.mk [Token.atom ⟨"a", ⟨0, 1⟩⟩] 0).withTransaction Lexer.readToken =
      (Except.ok (Token.atom ⟨"a", ⟨0, 1⟩⟩), Lexer.mk [Token.atom ⟨"a", ⟨0, 1⟩⟩] 1) ∧
    (Lexer.mk ([] : List Token) 5).withTransaction Lexer.readToken =
      (Except.error LError.unexpectedEof, Lexer.mk ([] : List Token) 5) :=
  ⟨(withTransaction_atomic Token Lexer.readToken
      (Lexer.mk [Token.atom ⟨"a", ⟨0, 1⟩⟩] 0)).1 (Token.atom ⟨"a", ⟨0, 1⟩⟩)
      (Lexer.mk [Token.atom ⟨"a", ⟨0, 1⟩⟩] 1) rfl,
   (withTransaction_atomic Token Lexer.readToken
      (Lexer.mk ([] : List Token) 5)).2 LError.unexpectedEof
      (Lexer.mk ([] : List Token) 5) rfl⟩

end Efmt.Lex

namespace Efmt.Items

open Efmt

/-- C7 (code divergence): capturing the macro-argument token sequence
`x }` — a closing brace whose brace counter is zero — reaches the
source's `todo!()` (a panic, modelled as `PResult.panic`) instead of
returning an `UnbalancedDelimiter` error value; and hitting end of
input mid-argument returns the reader's `UnexpectedEof`, again not an
`UnbalancedDelimiter`. -/
theorem macroArg_unbalanced_panics :
    MacroArg.parse ⟨[Token.atom ⟨"x", ⟨0, 1⟩⟩,
        Token.symbol ⟨Sym.closeBrace, ⟨1, 2⟩⟩], 0, []⟩ = PResult.panic ∧
    MacroArg.parse ⟨[Token.atom ⟨"x", ⟨0, 1⟩⟩], 0, []⟩ =
      PResult.error PError.unexpectedEof := by
  constructor <;>
    simp [MacroArg.parse, MacroArg.parseLoop, levelStep,
      TokenStream.peekCommaOrCloseParen, TokenStream.peekSymbolIs,
      Level.isToplevel, Level.zero, Token.startPosition]

end Efmt.Items

namespace Efmt.Rec

open Efmt Efmt.Fmt

theorem write_clean (f : Formatter) (s : String)
    (h : f.pending = Pending.nothing) :
    (f.write s).buf = f.buf ++ s ∧ (f.write s).pending = Pending.nothing ∧
    (f.write s).currentColumn = f.currentColumn + s.length := by
  unfold Formatter.write
  rw [h]
  exact ⟨rfl, rfl, rfl⟩

theorem rexprFormat_clean (e : RExpr) (f : Formatter)
    (h : f.pending = Pending.nothing) :
    (e.format f).buf = f.buf ++ e.text ∧
    (e.format f).pending = Pending.nothing := by
  cases e <;>
    simp [RExpr.format, RExpr.text, Formatter.write, h]

theorem indexFormat_clean (x : RecordIndexExpr) (f : Formatter)
    (h : f.pending = Pending.nothing) :
    (x.format f).buf = f.buf ++ x.text ∧
    (x.format f).pending = Pending.nothing := by
  simp [RecordIndexExpr.format, RecordIndexExpr.text, Formatter.write, h,
    String.append_assoc]

theorem fieldFormat_clean (x : RecordField) (f : Formatter)
    (h : f.pending = Pending.nothing) :
    (x.format f).buf = f.buf ++ x.text ∧
    (x.format f).pending = Pending.nothing := by
  obtain ⟨h1, h2⟩ := rexprFormat_clean x.value ((f.write x.name).write " = ")
    (by simp [Formatter.write, h])
  refine ⟨?_, h2⟩
  rw [RecordField.format, h1]
  simp [Formatter.write, h, RecordField.text, String.append_assoc]

theorem tupleLikeFoldl_clean (rest : List RecordField) (f : Formatter)
    (acc : String) (h : f.pending = Pending.nothing) (hbuf : f.buf = acc) :
    (rest.foldl (fun f y => RecordField.format y (f.write ", ")) f).buf =
      rest.foldl (fun acc y => acc ++ ", " ++ y.text) acc ∧
    (rest.foldl (fun f y => RecordField.format y (f.write ", ")) f).pending =
      Pending.nothing := by
  induction rest generalizing f acc with
  | nil => exact ⟨hbuf, h⟩
  | cons y rest ih =>
    obtain ⟨hw1, hw2, -⟩ := write_clean f ", " h
    obtain ⟨h1, h2⟩ := fieldFormat_clean y (f.write ", ") hw2
    simp only [List.foldl_cons]
    apply ih
    · exact h2
    · rw [h1, hw1, hbuf, String.append_assoc]

theorem foldlText_prefix (rest : List RecordField) (p a : String) :
    rest.foldl (fun acc y => acc ++ ", " ++ y.text) (p ++ a) =
      p ++ rest.foldl (fun acc y => acc ++ ", " ++ y.text) a := by
  induction rest generalizing a with
  | nil => rfl
  | cons y rest ih =>
    simp only [List.foldl_cons]
    rw [String.append_assoc p a ", ", String.append_assoc p (a ++ ", ") y.text,
      ih]

theorem tupleLikeFormat_clean (fields : List RecordField) (f : Formatter)
    (h : f.pending = Pending.nothing) :
    (tupleLikeFormat fields f).buf = f.buf ++ tupleLikeText fields := by
  obtain ⟨hw1, hw2, -⟩ := write_clean f "\x7b" h
  cases fields with
  | nil =>
    simp [tupleLikeFormat, tupleLikeText, Formatter.write, h,
      String.append_assoc]
  | cons x rest =>
    obtain ⟨h1, h2⟩ := fieldFormat_clean x (f.write "\x7b") hw2
    obtain ⟨h3, h4⟩ := tupleLikeFoldl_clean rest
      (RecordField.format x (f.write "\x7b"))
      (f.buf ++ "\x7b" ++ x.text) h2 (by rw [h1, hw1])
    obtain ⟨h5, -, -⟩ := write_clean
      (rest.foldl (fun f y => RecordField.format y (f.write ", "))
        (RecordField.format x (f.write "\x7b"))) "\x7d" h4
    unfold tupleLikeFormat tupleLikeText
    simp only [h5, h3]
    rw [show f.buf ++ "\x7b" ++ x.text = (f.buf ++ "\x7b") ++ x.text from rfl,
      foldlText_prefix]
    simp [String.append_assoc]

/-- C10: formatting a record access or record update writes the left
value, then exactly one space when (and only when) the left value is an
integer literal token, then the `#`-led remainder. -/
theorem recordAccessUpdate_integer_space (f : Formatter)
    (h : f.pending = Pending.nothing) :
    (∀ x : RecordAccessExpr,
      (x.format f).buf =
        f.buf ++ x.value.text ++
          (if x.value.isIntegerToken then " " else "") ++ x.index.text) ∧
    (∀ y : RecordUpdateExpr,
      (y.format f).buf =
        f.buf ++ y.value.text ++
          (if y.value.isIntegerToken then " " else "") ++
          ("#" ++ y.name.value ++ tupleLikeText y.fields)) := by
  constructor
  · intro x
    obtain ⟨h1, h2⟩ := rexprFormat_clean x.value f h
    simp only [RecordAccessExpr.format]
    by_cases hint : x.value.isIntegerToken = true
    · simp only [hint, if_true]
      obtain ⟨hs1, hs2, -⟩ := write_clean (x.value.format f) " " h2
      obtain ⟨h3, -⟩ := indexFormat_clean x.index
        (writeSpace (x.value.format f)) hs2
      rw [h3]
      unfold writeSpace
      rw [hs1, h1]
    · rw [Bool.not_eq_true] at hint
      simp only [hint, Bool.false_eq_true, if_false]
      obtain ⟨h3, -⟩ := indexFormat_clean x.index (x.value.format f) h2
      rw [h3, h1]
      simp only [String.append_assoc, String.empty_append]
  · intro y
    obtain ⟨h1, h2⟩ := rexprFormat_clean y.value f h
    simp only [RecordUpdateExpr.format]
    by_cases hint : y.value.isIntegerToken = true
    · simp only [hint, if_true]
      obtain ⟨hs1, hs2, -⟩ := write_clean (y.value.format f) " " h2
      obtain ⟨hsh1, hsh2, -⟩ := write_clean
        (writeSpace (y.value.format f)) "#" hs2
      obtain ⟨hn1, hn2, -⟩ := write_clean
        ((writeSpace (y.value.format f)).write "#") y.name.value hsh2
      have h3 := tupleLikeFormat_clean y.fields
        (((writeSpace (y.value.format f)).write "#").write y.name.value) hn2
      rw [h3, hn1, hsh1]
      unfold writeSpace
      rw [hs1, h1]
      simp only [String.append_assoc]
    · rw [Bool.not_eq_true] at hint
      simp only [hint, Bool.false_eq_true, if_false]
      obtain ⟨hsh1, hsh2, -⟩ := write_clean (y.value.format f) "#" h2
      obtain ⟨hn1, hn2, -⟩ := write_clean
        ((y.value.format f).write "#") y.name.value hsh2
      have h3 := tupleLikeFormat_clean y.fields
        (((y.value.format f).write "#").write y.name.value) hn2
      rw [h3, hn1, hsh1, h1]
      simp only [String.append_assoc, String.empty_append]

/-- Witness for C10: `0#foo.bar` formats with the space (`0 #foo.bar`),
`X#foo.bar` without; likewise `88#foo{}` → `88 #foo{}`. -/
theorem recordAccessUpdate_integer_space_witness :
    (RecordAccessExpr.format
        ⟨RExpr.integer ⟨0, ⟨0, 1⟩⟩, ⟨⟨"foo", ⟨2, 5⟩⟩, ⟨"bar", ⟨6, 9⟩⟩⟩⟩
        ((⟨100, 0, false, 0, Pending.nothing, ""⟩ : Formatter))).buf = "0 #foo.bar" ∧
    (RecordAccessExpr.format
        ⟨RExpr.var ⟨"X", ⟨0, 1⟩⟩, ⟨⟨"foo", ⟨2, 5⟩⟩, ⟨"bar", ⟨6, 9⟩⟩⟩⟩
        ((⟨100, 0, false, 0, Pending.nothing, ""⟩ : Formatter))).buf = "X#foo.bar" ∧
    (RecordUpdateExpr.format
        ⟨RExpr.integer ⟨88, ⟨0, 2⟩⟩, ⟨"foo", ⟨4, 7⟩⟩, []⟩
        ((⟨100, 0, false, 0, Pending.nothing, ""⟩ : Formatter))).buf = "88 #foo\x7b\x7d" := by
  refine ⟨?_, ?_, ?_⟩
  · have := (recordAccessUpdate_integer_space ((⟨100, 0, false, 0, Pending.nothing, ""⟩ : Formatter)) rfl).1
      ⟨RExpr.integer ⟨0, ⟨0, 1⟩⟩, ⟨⟨"foo", ⟨2, 5⟩⟩, ⟨"bar", ⟨6, 9⟩⟩⟩⟩
    rw [this]
    rfl
  · have := (recordAccessUpdate_integer_space ((⟨100, 0, false, 0, Pending.nothing, ""⟩ : Formatter)) rfl).1
      ⟨RExpr.var ⟨"X", ⟨0, 1⟩⟩, ⟨⟨"foo", ⟨2, 5⟩⟩, ⟨"bar", ⟨6, 9⟩⟩⟩⟩
    rw [this]
    rfl
  · have := (recordAccessUpdate_integer_space ((⟨100, 0, false, 0, Pending.nothing, ""⟩ : Formatter)) rfl).2
      ⟨RExpr.integer ⟨88, ⟨0, 2⟩⟩, ⟨"foo", ⟨4, 7⟩⟩, []⟩
    rw [this]
    rfl

end Efmt.Rec

namespace Efmt.Items

open Efmt

theorem lookup_append (l₁ l₂ : List (String × MacroArg)) (k : String) :
    (l₁ ++ l₂).lookup k =
      match l₁.lookup k with
      | some v => some v
      | Option.none => l₂.lookup k := by
  induction l₁ with
  | nil => simp [List.lookup]
  | cons p t ih =>
    cases hk : k == p.1 <;> simp [List.lookup, hk, ih]

theorem lookup_eq_none_of_not_mem (l : List (String × MacroArg)) (k : String)
    (h : k ∉ l.map Prod.fst) : l.lookup k = Option.none := by
  induction l with
  | nil => rfl
  | cons p t ih =>
    simp only [List.map_cons, List.mem_cons, not_or] at h
    have hk : (k == p.1) = false := beq_eq_false_iff_ne.mpr h.1
    simp [List.lookup, hk, ih h.2]

theorem hashMapFind_eq_lookup (pairs : List (String × MacroArg))
    (h : (pairs.map Prod.fst).Nodup) (k : String) :
    hashMapFind pairs k = pairs.lookup k := by
  induction pairs with
  | nil => rfl
  | cons p t ih =>
    simp only [List.map_cons, List.nodup_cons] at h
    unfold hashMapFind at ih ⊢
    rw [List.reverse_cons, lookup_append]
    by_cases hk : k = p.1
    · have hnone : t.reverse.lookup k = Option.none := by
        apply lookup_eq_none_of_not_mem
        rw [List.map_reverse, List.mem_reverse, hk]
        exact h.1
      have hbk : (k == p.1) = true := beq_iff_eq.mpr hk
      rw [hnone]
      simp [List.lookup, hbk]
    · have hbk : (k == p.1) = false := beq_eq_false_iff_ne.mpr hk
      rw [ih h.2]
      cases hl : t.lookup k <;> simp [List.lookup, hbk, hl]

theorem setSpan_positions (t : Token) (sp : Span) :
    (t.setSpan sp).startPosition = sp.startPos ∧
    (t.setSpan sp).endPosition = sp.endPos := by
  cases t <;> exact ⟨rfl, rfl⟩

theorem expand_foldl_flatMap (g : Token → List Token) (l : List Token)
    (acc : List Token)
    (body : List Token → Token → List Token)
    (hbody : ∀ acc t, body acc t = acc ++ g t) :
    l.foldl body acc = acc ++ l.flatMap g := by
  induction l generalizing acc with
  | nil => simp
  | cons t rest ih =>
    rw [List.foldl_cons, hbody, ih, List.flatMap_cons, List.append_assoc]

/-- C3: with captured arguments present for the formal parameters (one
captured argument per distinct parameter name), `Macro::expand` is the
spec's substitution — each variable token whose name equals a formal
parameter is replaced verbatim by that parameter's captured argument
token sequence, every other token kept — followed by rewriting every
resulting token's span to the macro invocation's call-site region. -/
theorem macroExpand_subst (m : Macro) (vars : List VariableToken)
    (vals : List MacroArg) (replacement : List Token)
    (p : Parenthesized (Items MacroArg CommaSymbol))
    (hargs : m.args.item = some p) (hvals : p.item.get = vals)
    (hlen : vars.length = vals.length)
    (hnodup : (vars.map (fun v => v.value)).Nodup) :
    m.expand (some vars) replacement =
      (replacement.flatMap (substPerClaim vars vals)).map
        (fun t => t.setSpan m.span) ∧
    ∀ t ∈ m.expand (some vars) replacement,
      t.startPosition = m.span.startPos ∧
      t.endPosition = m.span.endPos := by
  have hmain :
      m.expand (some vars) replacement =
        (replacement.flatMap (substPerClaim vars vals)).map
          (fun t => t.setSpan m.span) := by
    unfold Macro.expand
    simp only [Maybe.get, hargs, Option.map_some', hvals]
    have hfind : ∀ k,
        hashMapFind ((vars.map (fun x => x.value)).zip vals) k =
          ((vars.map (fun x => x.value)).zip vals).lookup k := by
      intro k
      apply hashMapFind_eq_lookup
      rw [List.map_fst_zip]
      · exact hnodup
      · rw [List.length_map, hlen]
    rw [expand_foldl_flatMap (substPerClaim vars vals)]
    · simp
    · intro acc t
      cases t with
      | var x =>
        dsimp only
        simp only [substPerClaim]
        rw [hfind x.value]
        cases ((vars.map (fun v => v.value)).zip vals).lookup x.value <;> rfl
      | atom t => rfl
      | integer t => rfl
      | string t => rfl
      | symbol t => rfl
      | keyword t => rfl
  refine ⟨hmain, ?_⟩
  intro t ht
  rw [hmain] at ht
  obtain ⟨t', -, rfl⟩ := List.mem_map.mp ht
  exact setSpan_positions t' m.span

/-- Witness for C3: expanding `?M(foo)` for `-define(M(X), X y).` —
the parameter variable `X` becomes the captured `foo`, the plain atom
`y` stays, and both carry the invocation's span. -/
theorem macroExpand_subst_witness :
    (Macro.mk ⟨⟨0, 1⟩⟩ ⟨Either.b ⟨"M", ⟨1, 2⟩⟩⟩
        ⟨some ⟨⟨⟨2, 3⟩⟩, ⟨⟨some ⟨[⟨[Token.atom ⟨"foo", ⟨3, 6⟩⟩]⟩], []⟩, 3, 3⟩⟩,
          ⟨⟨6, 7⟩⟩⟩, 0, 0⟩).expand
      (some [⟨"X", ⟨10, 11⟩⟩])
      [Token.var ⟨"X", ⟨20, 21⟩⟩, Token.atom ⟨"y", ⟨22, 23⟩⟩] =
      (([Token.var ⟨"X", ⟨20, 21⟩⟩,
          Token.atom ⟨"y", ⟨22, 23⟩⟩].flatMap
          (substPerClaim [⟨"X", ⟨10, 11⟩⟩] [⟨[Token.atom ⟨"foo", ⟨3, 6⟩⟩]⟩])).map
        (fun t => t.setSpan (Macro.mk ⟨⟨0, 1⟩⟩ ⟨Either.b ⟨"M", ⟨1, 2⟩⟩⟩
          ⟨some ⟨⟨⟨2, 3⟩⟩, ⟨⟨some ⟨[⟨[Token.atom ⟨"foo", ⟨3, 6⟩⟩]⟩], []⟩, 3, 3⟩⟩,
            ⟨⟨6, 7⟩⟩⟩, 0, 0⟩).span)) :=
  (macroExpand_subst _ [⟨"X", ⟨10, 11⟩⟩] [⟨[Token.atom ⟨"foo", ⟨3, 6⟩⟩]⟩] _
    ⟨⟨⟨2, 3⟩⟩, ⟨⟨some ⟨[⟨[Token.atom ⟨"foo", ⟨3, 6⟩⟩]⟩], []⟩, 3, 3⟩⟩, ⟨⟨6, 7⟩⟩⟩
    rfl rfl rfl (by decide)).1

end Efmt.Items

namespace Efmt.Items

open Efmt

theorem parseLoop_errD (T D : Type) [Parse T] [Parse D]
    [LawfulConsuming T] [LawfulConsuming D]
    (items : List T) (delimiters : List D) (ts : TokenStream) (e : PError)
    (hD : (Parse.parse ts : PResult D) = PResult.error e) :
    NonEmptyItems.parseLoop T D items delimiters ts =
      PResult.ok ⟨items, delimiters⟩ ts := by
  rw [NonEmptyItems.parseLoop.eq_def]
  split
  · rfl
  · next heq => rw [hD] at heq; cases heq
  · next delim ts₁ heq => rw [hD] at heq; cases heq

theorem parseLoop_okD (T D : Type) [Parse T] [Parse D]
    [LawfulConsuming T] [LawfulConsuming D]
    (items : List T) (delimiters : List D) (ts : TokenStream)
    (delim : D) (ts₁ : TokenStream) (item : T) (ts₂ : TokenStream)
    (hD : (Parse.parse ts : PResult D) = PResult.ok delim ts₁)
    (hT : (Parse.parse ts₁ : PResult T) = PResult.ok item ts₂) :
    NonEmptyItems.parseLoop T D items delimiters ts =
      NonEmptyItems.parseLoop T D (items ++ [item])
        (delimiters ++ [delim]) ts₂ := by
  rw [NonEmptyItems.parseLoop.eq_def]
  split
  · next e heq => rw [hD] at heq; cases heq
  · next heq => rw [hD] at heq; cases heq
  · next delim' ts₁' heq =>
    rw [hD] at heq
    cases heq
    split
    · next e heq2 => rw [hT] at heq2; cases heq2
    · next heq2 => rw [hT] at heq2; cases heq2
    · next item' ts₂' heq2 =>
      rw [hT] at heq2
      cases heq2
      rfl

/-- C6 counterexample: for a macro of declared arity 1, parsing the
invocation `?FOO(a, b)` — two supplied arguments — succeeds, capturing
both arguments; no `MacroArityMismatch` failure occurs (no arity check
exists in `Macro::parse`; the bound `_arity` is unused). -/
theorem macroParse_arity_mismatch_accepted :
    Macro.parse ⟨toks6, 0, []⟩ ⟨⟨0, 0⟩⟩ ⟨Either.a ⟨"FOO", ⟨0, 0⟩⟩⟩ (some 1) =
      PResult.ok mac6 ⟨toks6, 5, []⟩ ∧
    (mac6.args.item.map (fun p => (p.item.get).length)) = some 2 ∧ 2 ≠ 1 := by
  have h2 : (Parse.parse ⟨toks6, 1, []⟩ : PResult MacroArg) =
      PResult.ok ⟨[Token.atom ⟨"a", ⟨1, 2⟩⟩]⟩ ⟨toks6, 2, []⟩ := by
    show MacroArg.parse _ = _
    simp [MacroArg.parse, MacroArg.parseLoop, levelStep,
      TokenStream.peekCommaOrCloseParen, TokenStream.peekSymbolIs,
      Level.isToplevel, Level.zero, Token.startPosition, toks6]
  have h3 : (Parse.parse ⟨toks6, 2, []⟩ : PResult CommaSymbol) =
      PResult.ok ⟨⟨2, 3⟩⟩ ⟨toks6, 3, []⟩ := by
    show CommaSymbol.parse _ = _
    simp [CommaSymbol.parse, parseSymbol, toks6]
  have h4 : (Parse.parse ⟨toks6, 3, []⟩ : PResult MacroArg) =
      PResult.ok ⟨[Token.atom ⟨"b", ⟨3, 4⟩⟩]⟩ ⟨toks6, 4, []⟩ := by
    show MacroArg.parse _ = _
    simp [MacroArg.parse, MacroArg.parseLoop, levelStep,
      TokenStream.peekCommaOrCloseParen, TokenStream.peekSymbolIs,
      Level.isToplevel, Level.zero, Token.startPosition, toks6]
  have h5 : (Parse.parse ⟨toks6, 4, []⟩ : PResult CommaSymbol) =
      PResult.error PError.unexpectedToken := by
    show CommaSymbol.parse _ = _
    simp [CommaSymbol.parse, parseSymbol, toks6]
  have hNE : (Parse.parse ⟨toks6, 1, []⟩ :
      PResult (NonEmptyItems MacroArg CommaSymbol)) =
      PResult.ok ⟨[⟨[Token.atom ⟨"a", ⟨1, 2⟩⟩]⟩, ⟨[Token.atom ⟨"b", ⟨3, 4⟩⟩]⟩],
        [⟨⟨2, 3⟩⟩]⟩ ⟨toks6, 4, []⟩ := by
    show NonEmptyItems.parse _ _ _ = _
    rw [NonEmptyItems.parse, h2]
    dsimp only
    rw [parseLoop_okD _ _ _ _ _ _ _ _ _ h3 h4,
      parseLoop_errD _ _ _ _ _ _ h5]
    rfl
  have hMaybeNE : (Parse.parse ⟨toks6, 1, []⟩ :
      PResult (Maybe (NonEmptyItems MacroArg CommaSymbol))) =
      PResult.ok
        ⟨some ⟨[⟨[Token.atom ⟨"a", ⟨1, 2⟩⟩]⟩, ⟨[Token.atom ⟨"b", ⟨3, 4⟩⟩]⟩],
          [⟨⟨2, 3⟩⟩]⟩, 1, 1⟩ ⟨toks6, 4, []⟩ := by
    show Maybe.parse _ _ = _
    rw [Maybe.parse]
    rw [hNE]
    rfl
  have hItems : (Parse.parse ⟨toks6, 1, []⟩ :
      PResult (Items MacroArg CommaSymbol)) =
      PResult.ok
        ⟨⟨some ⟨[⟨[Token.atom ⟨"a", ⟨1, 2⟩⟩]⟩, ⟨[Token.atom ⟨"b", ⟨3, 4⟩⟩]⟩],
          [⟨⟨2, 3⟩⟩]⟩, 1, 1⟩⟩ ⟨toks6, 4, []⟩ := by
    show Items.parse _ _ _ = _
    rw [Items.parse, hMaybeNE]
  have hOpen : (Parse.parse ⟨toks6, 0, []⟩ : PResult OpenParenSymbol) =
      PResult.ok ⟨⟨0, 1⟩⟩ ⟨toks6, 1, []⟩ := by
    show OpenParenSymbol.parse _ = _
    simp [OpenParenSymbol.parse, parseSymbol, toks6]
  have hClose : (Parse.parse ⟨toks6, 4, []⟩ : PResult CloseParenSymbol) =
      PResult.ok ⟨⟨4, 5⟩⟩ ⟨toks6, 5, []⟩ := by
    show CloseParenSymbol.parse _ = _
    simp [CloseParenSymbol.parse, parseSymbol, toks6]
  have hParen : (Parse.parse ⟨toks6, 0, []⟩ :
      PResult (Parenthesized (Items MacroArg CommaSymbol))) =
      PResult.ok
        ⟨⟨⟨0, 1⟩⟩,
         ⟨⟨some ⟨[⟨[Token.atom ⟨"a", ⟨1, 2⟩⟩]⟩, ⟨[Token.atom ⟨"b", ⟨3, 4⟩⟩]⟩],
           [⟨⟨2, 3⟩⟩]⟩, 1, 1⟩⟩,
         ⟨⟨4, 5⟩⟩⟩ ⟨toks6, 5, []⟩ := by
    show Parenthesized.parse _ _ = _
    rw [Parenthesized.parse, hOpen]
    dsimp only
    rw [hItems]
    dsimp only
    rw [hClose]
  have hMaybeP : (Parse.parse ⟨toks6, 0, []⟩ :
      PResult (Maybe (Parenthesized (Items MacroArg CommaSymbol)))) =
      PResult.ok
        ⟨some ⟨⟨⟨0, 1⟩⟩,
          ⟨⟨some ⟨[⟨[Token.atom ⟨"a", ⟨1, 2⟩⟩]⟩, ⟨[Token.atom ⟨"b", ⟨3, 4⟩⟩]⟩],
            [⟨⟨2, 3⟩⟩]⟩, 1, 1⟩⟩,
          ⟨⟨4, 5⟩⟩⟩, 0, 0⟩ ⟨toks6, 5, []⟩ := by
    show Maybe.parse _ _ = _
    rw [Maybe.parse]
    rw [hParen]
    rfl
  refine ⟨?_, rfl, by decide⟩
  rw [Macro.parse]
  rw [hMaybeP]
  rfl

/-- C6 amended: `Macro::parse` never checks the argument count against
the declared arity — the arity value is ignored entirely (only its
presence selects whether an optional parenthesized argument list is
parsed at all), and with no declared arity the invocation gets no
argument list. -/
theorem macroParse_ignores_arity :
    (∀ ts question nm (n₁ n₂ : Nat),
      Macro.parse ts question nm (some n₁) =
        Macro.parse ts question nm (some n₂)) ∧
    (∀ ts question nm,
      Macro.parse ts question nm Option.none =
        PResult.ok ⟨question, nm, Maybe.none ts _⟩ ts) :=
  ⟨fun _ _ _ _ _ => rfl, fun _ _ _ => rfl⟩

end Efmt.Items

namespace Efmt.Cst

open Efmt

theorem atomParse_le (toks : List Token) (i : Nat)
    (le : Option (Nat × CError)) :
    Atom.parse ⟨toks, i, le⟩ =
      ((Atom.parse ⟨toks, i, Option.none⟩).1,
       { (Atom.parse ⟨toks, i, Option.none⟩).2 with lastError := le }) := by
  rcases hget : toks[i]? with - | tok
  · simp [Atom.parse, TokenReader.readToken, hget]
  · cases tok <;> simp [Atom.parse, TokenReader.readToken, hget]

theorem varParse_le (toks : List Token) (i : Nat)
    (le : Option (Nat × CError)) :
    Variable.parse ⟨toks, i, le⟩ =
      ((Variable.parse ⟨toks, i, Option.none⟩).1,
       { (Variable.parse ⟨toks, i, Option.none⟩).2 with lastError := le }) := by
  rcases hget : toks[i]? with - | tok
  · simp [Variable.parse, TokenReader.readToken, hget]
  · cases tok <;> simp [Variable.parse, TokenReader.readToken, hget]

theorem stringParse_le (toks : List Token) (i : Nat)
    (le : Option (Nat × CError)) :
    StringNode.parse ⟨toks, i, le⟩ =
      ((StringNode.parse ⟨toks, i, Option.none⟩).1,
       { (StringNode.parse ⟨toks, i, Option.none⟩).2 with lastError := le }) := by
  rcases hget : toks[i]? with - | tok
  · simp [StringNode.parse, TokenReader.readToken, hget]
  · cases tok <;> simp [StringNode.parse, TokenReader.readToken, hget]

/-- C8: `Expr::parse` tries `Atom`, `Variable`, `String` in declaration
order, each attempt inside a transaction that rolls the cursor back on
failure; the first variant that succeeds is returned with its cursor
advance, and when every variant fails the returned error is the
deepest-reaching one — its cursor index is the maximum of the three
attempts' failure indexes — with the cursor restored to the pre-call
index. -/
theorem exprParse_alternation (r : TokenReader)
    (hfresh : r.lastError = Option.none) :
    (∀ x r₁, Atom.parse r = (Except.ok x, r₁) →
      Expr.parse r = (Except.ok (Expr.atom x), r₁)) ∧
    (∀ eA rA x r₂, Atom.parse r = (Except.error eA, rA) →
      Variable.parse r = (Except.ok x, r₂) →
      (Expr.parse r).1 = Except.ok (Expr.var x) ∧
      (Expr.parse r).2.index = r₂.index) ∧
    (∀ eA rA eV rV x r₃, Atom.parse r = (Except.error eA, rA) →
      Variable.parse r = (Except.error eV, rV) →
      StringNode.parse r = (Except.ok x, r₃) →
      (Expr.parse r).1 = Except.ok (Expr.string x) ∧
      (Expr.parse r).2.index = r₃.index) ∧
    (∀ eA rA eV rV eS rS, Atom.parse r = (Except.error eA, rA) →
      Variable.parse r = (Except.error eV, rV) →
      StringNode.parse r = (Except.error eS, rS) →
      ∃ d e, (Expr.parse r).1 = Except.error (d, e) ∧
        d = max rA.index (max rV.index rS.index) ∧
        ((d, e) = (rA.index, eA) ∨ (d, e) = (rV.index, eV) ∨
          (d, e) = (rS.index, eS)) ∧
        (Expr.parse r).2.index = r.index) := by
  have hr : (⟨r.tokens, r.index, Option.none⟩ : TokenReader) = r := by
    cases r
    simp_all
  refine ⟨?_, ?_, ?_, ?_⟩
  · intro x r₁ hA
    unfold Expr.parse tryParse
    rw [hA]
  · intro eA rA x r₂ hA hV
    unfold Expr.parse tryParse
    rw [hA]
    dsimp only
    rw [hfresh]
    dsimp only [recordErr]
    have hV' := varParse_le r.tokens r.index (some (rA.index, eA))
    rw [hr, hV] at hV'
    rw [hV']
    dsimp only
    exact ⟨rfl, rfl⟩
  · intro eA rA eV rV x r₃ hA hV hS
    unfold Expr.parse tryParse
    rw [hA]
    dsimp only
    rw [hfresh]
    dsimp only [recordErr]
    have hV' := varParse_le r.tokens r.index (some (rA.index, eA))
    rw [hr, hV] at hV'
    rw [hV']
    dsimp only [recordErr]
    have hS' := stringParse_le r.tokens r.index
      (if rV.index > rA.index then some (rV.index, eV) else some (rA.index, eA))
    rw [hr, hS] at hS'
    rw [hS']
    dsimp only
    exact ⟨rfl, rfl⟩
  · intro eA rA eV rV eS rS hA hV hS
    unfold Expr.parse tryParse
    rw [hA]
    dsimp only
    rw [hfresh]
    dsimp only [recordErr]
    have hV' := varParse_le r.tokens r.index (some (rA.index, eA))
    rw [hr, hV] at hV'
    rw [hV']
    dsimp only [recordErr]
    have hS' := stringParse_le r.tokens r.index
      (if rV.index > rA.index then some (rV.index, eV) else some (rA.index, eA))
    rw [hr, hS] at hS'
    rw [hS']
    dsimp only
    by_cases h1 : rV.index > rA.index
    · simp only [if_pos h1, recordErr]
      by_cases h2 : rS.index > rV.index
      · simp only [if_pos h2, TokenReader.takeLastError]
        exact ⟨rS.index, eS, rfl, by omega, Or.inr (Or.inr rfl), trivial⟩
      · simp only [if_neg h2, TokenReader.takeLastError]
        exact ⟨rV.index, eV, rfl, by omega, Or.inr (Or.inl rfl), trivial⟩
    · simp only [if_neg h1, recordErr]
      by_cases h2 : rS.index > rA.index
      · simp only [if_pos h2, TokenReader.takeLastError]
        exact ⟨rS.index, eS, rfl, by omega, Or.inr (Or.inr rfl), trivial⟩
      · simp only [if_neg h2, TokenReader.takeLastError]
        exact ⟨rA.index, eA, rfl, by omega, Or.inl rfl, trivial⟩

/-- Witness for C8: on the single-token input `,` all three variants
fail at cursor index 1 and `Expr::parse` surfaces that deepest error
with the cursor restored to 0. -/
theorem exprParse_alternation_witness :
    ∃ d e, (Expr.parse ⟨[Token.symbol ⟨Sym.comma, ⟨0, 1⟩⟩], 0,
        Option.none⟩).1 = Except.error (d, e) ∧
      d = max 1 (max 1 1) ∧
      ((d, e) = (1, CError.unexpectedToken) ∨
        (d, e) = (1, CError.unexpectedToken) ∨
        (d, e) = (1, CError.unexpectedToken)) ∧
      (Expr.parse ⟨[Token.symbol ⟨Sym.comma, ⟨0, 1⟩⟩], 0,
        Option.none⟩).2.index = 0 :=
  (exprParse_alternation ⟨[Token.symbol ⟨Sym.comma, ⟨0, 1⟩⟩], 0,
      Option.none⟩ rfl).2.2.2 CError.unexpectedToken
    ⟨[Token.symbol ⟨Sym.comma, ⟨0, 1⟩⟩], 1, Option.none⟩
    CError.unexpectedToken
    ⟨[Token.symbol ⟨Sym.comma, ⟨0, 1⟩⟩], 1, Option.none⟩
    CError.unexpectedToken
    ⟨[Token.symbol ⟨Sym.comma, ⟨0, 1⟩⟩], 1, Option.none⟩
    rfl rfl rfl

end Efmt.Cst

namespace Efmt.Fmt

open Efmt Efmt.Items

theorem countNewlines_append (a b : String) :
    countNewlines (a ++ b) = countNewlines a + countNewlines b := by
  simp [countNewlines, String.data_append, List.count_append]

theorem write_newlines (f : Formatter) (s : String) :
    countNewlines (f.write s).buf =
      countNewlines f.buf +
        (if f.pending = Pending.newline then 1 else 0) + countNewlines s ∧
    (f.write s).pending = Pending.nothing ∧
    (f.write s).multiline = f.multiline := by
  cases hp : f.pending <;>
    simp [Formatter.write, hp, countNewlines, String.data_append,
      List.count_append, List.count_replicate] <;>
    omega

/-- The pair fold of `NonEmptyItems::format` adds exactly one (pending)
newline per pair in multiline mode and none in packed mode. -/
theorem nonEmptyItemsFold_newlines (ps : List (ElemItem × CommaSymbol)) :
    ∀ f : Formatter,
    (∀ q ∈ ps, countNewlines (FmtItem.text q.1) = 0) →
    (f.multiline = true →
      countNewlines ((ps.foldl itemPairStep f).buf) +
          (if (ps.foldl itemPairStep f).pending = Pending.newline
            then 1 else 0) =
        countNewlines f.buf +
          (if f.pending = Pending.newline then 1 else 0) + ps.length ∧
      (ps.foldl itemPairStep f).multiline = true) ∧
    (f.multiline = false → f.pending ≠ Pending.newline →
      countNewlines ((ps.foldl itemPairStep f).buf) = countNewlines f.buf ∧
      (ps.foldl itemPairStep f).multiline = false ∧
      (ps.foldl itemPairStep f).pending ≠ Pending.newline) := by
  induction ps with
  | nil =>
    intro f hclean
    exact ⟨fun hm => ⟨by simp, hm⟩, fun hm hp => ⟨rfl, hm, hp⟩⟩
  | cons q ps ih =>
    intro f hclean
    have hq : countNewlines (FmtItem.text q.1) = 0 :=
      hclean q (List.mem_cons_self q ps)
    have hps : ∀ p ∈ ps, countNewlines (FmtItem.text p.1) = 0 :=
      fun p hp => hclean p (List.mem_cons_of_mem q hp)
    obtain ⟨hw1, hw2, hw3⟩ := write_newlines f (FmtItem.text q.1)
    obtain ⟨hv1, hv2, hv3⟩ :=
      write_newlines (f.write (FmtItem.text q.1)) (FmtItem.text q.2)
    have hcomma : countNewlines (FmtItem.text q.2) = 0 := by
      show countNewlines "," = 0
      decide
    simp only [List.foldl_cons, List.length_cons]
    constructor
    · intro hm
      have hstep : itemPairStep f q =
          ((f.write (FmtItem.text q.1)).write
            (FmtItem.text q.2)).needsNewline := by
        simp [itemPairStep, formatItem, Formatter.multilineIsRecommended,
          hv3, hw3, hm]
      simp only [hstep]
      have hmul : (((f.write (FmtItem.text q.1)).write
          (FmtItem.text q.2)).needsNewline).multiline = true := by
        simp [Formatter.needsNewline, hv3, hw3, hm]
      obtain ⟨ih1, ih2⟩ :=
        (ih (((f.write (FmtItem.text q.1)).write
          (FmtItem.text q.2)).needsNewline) hps).1 hmul
      refine ⟨?_, ih2⟩
      have e2 : countNewlines (((f.write (FmtItem.text q.1)).write
          (FmtItem.text q.2)).needsNewline).buf =
          countNewlines f.buf +
            (if f.pending = Pending.newline then 1 else 0) := by
        show countNewlines ((f.write (FmtItem.text q.1)).write
          (FmtItem.text q.2)).buf = _
        rw [hv1, hw1, hq, hcomma, hw2]
        simp
      have e3 : (if (((f.write (FmtItem.text q.1)).write
          (FmtItem.text q.2)).needsNewline).pending = Pending.newline
          then 1 else 0) = 1 := by
        simp [Formatter.needsNewline]
      omega
    · intro hm hp
      have hstep : itemPairStep f q =
          ((f.write (FmtItem.text q.1)).write
            (FmtItem.text q.2)).needsSpace := by
        simp [itemPairStep, formatItem, Formatter.multilineIsRecommended,
          hv3, hw3, hm]
      simp only [hstep]
      have hsp : (((f.write (FmtItem.text q.1)).write
          (FmtItem.text q.2)).needsSpace).pending = Pending.space := by
        simp [Formatter.needsSpace, hv2]
      have hmul : (((f.write (FmtItem.text q.1)).write
          (FmtItem.text q.2)).needsSpace).multiline = false := by
        simp [Formatter.needsSpace, hv2, hv3, hw3, hm]
      obtain ⟨ih1, ih2, ih3⟩ :=
        (ih (((f.write (FmtItem.text q.1)).write
          (FmtItem.text q.2)).needsSpace) hps).2 hmul (by simp [hsp])
      refine ⟨?_, ih2, ih3⟩
      have hbuf : (((f.write (FmtItem.text q.1)).write
          (FmtItem.text q.2)).needsSpace).buf =
          ((f.write (FmtItem.text q.1)).write (FmtItem.text q.2)).buf := by
        simp [Formatter.needsSpace, hv2]
      have e2 : countNewlines (((f.write (FmtItem.text q.1)).write
          (FmtItem.text q.2)).needsSpace).buf = countNewlines f.buf := by
        rw [hbuf, hv1, hw1, hq, hcomma, hw2]
        simp [hp]
      omega

end Efmt.Fmt

namespace Efmt.Fmt

open Efmt Efmt.Items

theorem getLast?_mem_list {α : Type} {l : List α} {a : α}
    (h : l.getLast? = some a) : a ∈ l := by
  obtain ⟨h0, heq⟩ := List.mem_getLast?_eq_getLast (Option.mem_def.mpr h)
  rw [heq]
  exact List.getLast_mem h0

/-- C9 (amended): `Elements::format` chooses the packed paragraph-fill
body exactly when every item is primitive and otherwise falls back to
the default item-list rendering; that fallback separates items with
delimiter and space (no inserted newline) when the region's multiline
mode is not recommended, and puts one item per line (one newline per
delimiter) when it is. -/
theorem elementsFormat_packing (x : Elements ElemItem) (f : Formatter)
    (ne : NonEmptyItems ElemItem CommaSymbol) :
    ((x.inner.get).all (fun it => isPrimitive it) = true →
      elementsFormat x f =
        withSubregion 1 (fun g => formatPackedItems x g) f) ∧
    ((x.inner.get).all (fun it => isPrimitive it) = false →
      elementsFormat x f =
        withSubregion 1 (fun g => itemsFormat x.inner g) f) ∧
    (f.multiline = false → f.pending = Pending.nothing →
      (∀ it ∈ ne.items, countNewlines (FmtItem.text it) = 0) →
      countNewlines (nonEmptyItemsFormat ne f).buf = countNewlines f.buf) ∧
    (f.multiline = true → f.pending = Pending.nothing →
      (∀ it ∈ ne.items, countNewlines (FmtItem.text it) = 0) →
      ne.delimiters.length + 1 = ne.items.length →
      countNewlines (nonEmptyItemsFormat ne f).buf =
        countNewlines f.buf + ne.delimiters.length) := by
  refine ⟨?_, ?_, ?_, ?_⟩
  · intro h
    simp [elementsFormat, h]
  · intro h
    simp [elementsFormat, h]
  · intro hm hpend hitems
    have hz : ∀ q ∈ ne.items.zip ne.delimiters,
        countNewlines (FmtItem.text q.1) = 0 :=
      fun q hq => hitems q.1 (List.of_mem_zip hq).1
    obtain ⟨e1, -, e3⟩ :=
      (nonEmptyItemsFold_newlines (ne.items.zip ne.delimiters) f hz).2 hm
        (by rw [hpend]; exact fun habs => Pending.noConfusion habs)
    unfold nonEmptyItemsFormat
    cases hlast : ne.items.getLast? with
    | none => exact e1
    | some item =>
      obtain ⟨hw1, -, -⟩ := write_newlines
        ((ne.items.zip ne.delimiters).foldl itemPairStep f)
        (FmtItem.text item)
      have hitem : countNewlines (FmtItem.text item) = 0 :=
        hitems item (getLast?_mem_list hlast)
      have hnp : (if ((ne.items.zip ne.delimiters).foldl itemPairStep
          f).pending = Pending.newline then 1 else 0) = 0 := by
        simp [e3]
      show countNewlines (formatItem _ item).buf = _
      unfold formatItem
      omega
  · intro hm hpend hitems hlen
    have hz : ∀ q ∈ ne.items.zip ne.delimiters,
        countNewlines (FmtItem.text q.1) = 0 :=
      fun q hq => hitems q.1 (List.of_mem_zip hq).1
    obtain ⟨e1, -⟩ :=
      (nonEmptyItemsFold_newlines (ne.items.zip ne.delimiters) f hz).1 hm
    have hzlen : (ne.items.zip ne.delimiters).length =
        ne.delimiters.length := by
      rw [List.length_zip]
      omega
    have hnpf : (if f.pending = Pending.newline then 1 else 0) = 0 := by
      simp [hpend]
    unfold nonEmptyItemsFormat
    cases hlast : ne.items.getLast? with
    | none =>
      rw [List.getLast?_eq_none_iff] at hlast
      rw [hlast] at hlen
      simp at hlen
    | some item =>
      obtain ⟨hw1, -, -⟩ := write_newlines
        ((ne.items.zip ne.delimiters).foldl itemPairStep f)
        (FmtItem.text item)
      have hitem : countNewlines (FmtItem.text item) = 0 :=
        hitems item (getLast?_mem_list hlast)
      show countNewlines (formatItem _ item).buf = _
      unfold formatItem
      omega

/-- C9 counterexample: with both items non-primitive but short, the
whole element list is rendered on a single line (`"a(), b()"` — no
newline between items), refuting "every item is placed on its own
line". -/
theorem elementsFormat_nonprimitive_single_line :
    (elemCx.inner.get).all (fun it => isPrimitive it) = false ∧
    (elementsFormat elemCx fmtCx).buf = "a(), b()" ∧
    countNewlines (elementsFormat elemCx fmtCx).buf = 0 := by
  refine ⟨rfl, rfl, by decide⟩

/-- Witness for C9: the fallback at a concrete two-item list — packed
mode yields one line, multiline-recommended mode yields one newline per
delimiter. -/
theorem elementsFormat_packing_witness :
    countNewlines (nonEmptyItemsFormat
      (⟨[⟨"a()", false⟩, ⟨"b()", false⟩], [⟨⟨0, 0⟩⟩]⟩ :
        NonEmptyItems ElemItem CommaSymbol) fmtCx).buf =
      countNewlines fmtCx.buf ∧
    countNewlines (nonEmptyItemsFormat
      (⟨[⟨"a()", false⟩, ⟨"b()", false⟩], [⟨⟨0, 0⟩⟩]⟩ :
        NonEmptyItems ElemItem CommaSymbol)
      { fmtCx with multiline := true }).buf =
      countNewlines { fmtCx with multiline := true }.buf + 1 :=
  ⟨(elementsFormat_packing elemCx fmtCx
      ⟨[⟨"a()", false⟩, ⟨"b()", false⟩], [⟨⟨0, 0⟩⟩]⟩).2.2.1 rfl rfl
      (by decide),
   (elementsFormat_packing elemCx { fmtCx with multiline := true }
      ⟨[⟨"a()", false⟩, ⟨"b()", false⟩], [⟨⟨0, 0⟩⟩]⟩).2.2.2 rfl rfl
      (by decide) rfl⟩

end Efmt.Fmt

namespace Efmt.Layout

/-- C2: formatting the input `catch foo(bar,Baz,qux)+3+4` with
`max_columns = 20` produces exactly the four lines of scenario S6 —
call arguments aligned to the column after `foo(`, and the continuation
operand `4` aligned to the column after `catch `. -/
theorem formatText_s6 :
    formatText 20 "catch foo(bar,Baz,qux)+3+4" =
      some "catch foo(bar,\n          Baz,\n          qux) + 3 +\n      4" :=
  rfl

end Efmt.Layout

namespace Efmt.Items

open Efmt

theorem levelStep_congr (u w : TokenStream) (h : u.tokens = w.tokens)
    (hi : u.index = w.index) (token : Token) (lv : Level) :
    levelStep u token lv = levelStep w token lv := by
  cases token with
  | keyword k =>
    cases hk : k.value <;>
      simp [levelStep, hk, TokenStream.peekSymbolIs,
        TokenStream.peekTokenThenOpenParen, h, hi]
  | atom t => rfl
  | var t => rfl
  | integer t => rfl
  | string t => rfl
  | symbol t => rfl

theorem runLevelAux_congr (ts₁ ts₂ : TokenStream)
    (h1 : ts₁.tokens = ts₂.tokens) (h2 : ts₁.macros = ts₂.macros) :
    ∀ n i lv, runLevelAux ts₁ i n lv = runLevelAux ts₂ i n lv := by
  intro n
  induction n with
  | zero => intro i lv; rfl
  | succ m ih =>
    intro i lv
    unfold runLevelAux
    rw [h1, h2]
    cases hget : ts₂.tokens.get? i with
    | none => rfl
    | some token =>
      dsimp only
      cases hmac : ts₂.macros.contains token.startPosition with
      | false =>
        simp only [Bool.false_eq_true, if_false]
        cases hls : levelStep { ts₂ with index := i + 1 } token lv with
        | none => rfl
        | some lv' => exact ih (i + 1) lv'
      | true =>
        simp only [if_true]
        exact ih (i + 1) lv

end Efmt.Items

namespace Efmt.Items

open Efmt

theorem runLevelAux_succ_skip (ts : TokenStream) (i k : Nat) (lv : Level)
    (token : Token) (h : ts.tokens.get? i = some token)
    (hmac : ts.macros.contains token.startPosition = true) :
    runLevelAux ts i (k + 1) lv = runLevelAux ts (i + 1) k lv := by
  conv_lhs => unfold runLevelAux
  rw [h]
  dsimp only
  rw [if_pos hmac]

theorem runLevelAux_succ_step (ts : TokenStream) (i k : Nat) (lv : Level)
    (token : Token) (level' : Level)
    (h : ts.tokens.get? i = some token)
    (hmac : ts.macros.contains token.startPosition = false)
    (hstep : levelStep { ts with index := i + 1 } token lv = some level') :
    runLevelAux ts i (k + 1) lv = runLevelAux ts (i + 1) k level' := by
  conv_lhs => unfold runLevelAux
  rw [h]
  dsimp only
  rw [if_neg (show ¬(ts.macros.contains token.startPosition = true) by
    rw [hmac]; simp), hstep]

theorem MacroArg.parseLoop_char :
    ∀ ts (tokens : List Token) (level : Level), ∀ (v : MacroArg) ts₂,
    MacroArg.parseLoop ts tokens level = PResult.ok v ts₂ →
    v.tokens =
      tokens ++ (ts.tokens.drop ts.index).take (ts₂.index - ts.index) ∧
    runLevelAux ts ts.index (ts₂.index - ts.index) level =
      some Level.zero ∧
    TokenStream.peekCommaOrCloseParen ts₂ = true ∧
    (∀ j, ts.index ≤ j → j < ts₂.index →
      ¬((tokens ≠ [] ∨ ts.index < j) ∧
        (∃ lv, runLevelAux ts ts.index (j - ts.index) level = some lv ∧
          lv.isToplevel = true) ∧
        TokenStream.peekCommaOrCloseParen { ts with index := j } = true)) := by
  intro ts tokens level
  induction ts, tokens, level using MacroArg.parseLoop.induct with
  | case1 ts tokens level hcond =>
    intro v ts₂ hok
    rw [MacroArg.parseLoop, if_pos hcond] at hok
    cases hok
    simp only [Bool.and_eq_true, Bool.not_eq_true'] at hcond
    have hlevel : level = Level.zero := by
      have htl := hcond.1.2
      unfold Level.isToplevel at htl
      exact of_decide_eq_true htl
    refine ⟨by simp, by rw [Nat.sub_self, hlevel]; rfl, hcond.2, ?_⟩
    intro j hj1 hj2
    omega
  | case2 ts tokens level hcond h =>
    intro v ts₂ hok
    rw [MacroArg.parseLoop, if_neg hcond, h] at hok
    exact PResult.noConfusion hok
  | case3 ts tokens level hcond token h ts' hmac ih =>
    intro v ts₂ hok
    rw [MacroArg.parseLoop, if_neg hcond, h] at hok
    dsimp only at hok
    rw [if_pos hmac] at hok
    obtain ⟨e1, e2, e3, e4⟩ := ih v ts₂ hok
    obtain ⟨s1, s2, s3, s4, -⟩ :=
      MacroArg.parseLoop_ok_state ts' (tokens ++ [token]) level v ts₂ hok
    simp only [ts'] at e1 e2 e3 e4 s1 s2 s3 s4
    obtain ⟨hlt, hgetElem⟩ := by
      have h' := h
      rw [List.get?_eq_getElem?] at h'
      exact List.getElem?_eq_some.mp h'
    have hdrop : ts.tokens.drop ts.index =
        token :: ts.tokens.drop (ts.index + 1) := by
      rw [List.drop_eq_getElem_cons hlt, hgetElem]
    have hd : ts₂.index - ts.index = (ts₂.index - (ts.index + 1)) + 1 := by
      omega
    have hcongr := runLevelAux_congr
      { tokens := ts.tokens, index := ts.index + 1, macros := ts.macros }
      ts rfl rfl
    refine ⟨?_, ?_, e3, ?_⟩
    · rw [hd, hdrop, List.take_succ_cons, e1]
      simp
    · rw [hd, runLevelAux_succ_skip ts ts.index _ level token h hmac]
      rw [← hcongr]
      exact e2
    · intro j hj1 hj2 habs
      obtain ⟨hne, ⟨lv, hrun, htop⟩, hpeek⟩ := habs
      rcases Nat.eq_or_lt_of_le hj1 with hj0 | hjgt
      · rw [← hj0] at hrun hpeek
        rw [Nat.sub_self] at hrun
        have hlv : lv = level := by
          have h0 : runLevelAux ts ts.index 0 level = some level := rfl
          rw [h0] at hrun
          cases hrun
          rfl
        rw [hlv] at htop
        have hne' : tokens ≠ [] := by
          rcases hne with hne | hne
          · exact hne
          · omega
        have hemp : tokens.isEmpty = false := by
          cases tokens with
          | nil => exact absurd rfl hne'
          | cons a l => rfl
        apply hcond
        have hpeek' : TokenStream.peekCommaOrCloseParen ts = true := hpeek
        simp [hemp, htop, hpeek']
      · have hjd : j - ts.index = (j - (ts.index + 1)) + 1 := by omega
        rw [hjd, runLevelAux_succ_skip ts ts.index _ level token h hmac]
          at hrun
        rw [← hcongr] at hrun
        exact e4 j (by omega) hj2
          ⟨Or.inl (by simp), ⟨lv, hrun, htop⟩, hpeek⟩
  | case4 ts tokens level hcond token h ts' hmac hstep =>
    intro v ts₂ hok
    rw [MacroArg.parseLoop, if_neg hcond, h] at hok
    dsimp only at hok
    rw [if_neg hmac] at hok
    rw [hstep] at hok
    exact PResult.noConfusion hok
  | case5 ts tokens level hcond token h ts' hmac level' hstep ih =>
    intro v ts₂ hok
    rw [MacroArg.parseLoop, if_neg hcond, h] at hok
    dsimp only at hok
    rw [if_neg hmac] at hok
    rw [hstep] at hok
    obtain ⟨e1, e2, e3, e4⟩ := ih v ts₂ hok
    obtain ⟨s1, s2, s3, s4, -⟩ :=
      MacroArg.parseLoop_ok_state ts' (tokens ++ [token]) level' v ts₂ hok
    simp only [ts'] at e1 e2 e3 e4 s1 s2 s3 s4 hstep
    obtain ⟨hlt, hgetElem⟩ := by
      have h' := h
      rw [List.get?_eq_getElem?] at h'
      exact List.getElem?_eq_some.mp h'
    have hdrop : ts.tokens.drop ts.index =
        token :: ts.tokens.drop (ts.index + 1) := by
      rw [List.drop_eq_getElem_cons hlt, hgetElem]
    have hd : ts₂.index - ts.index = (ts₂.index - (ts.index + 1)) + 1 := by
      omega
    have hmac' : ts.macros.contains token.startPosition = false := by
      cases hx : ts.macros.contains token.startPosition
      · rfl
      · exact absurd hx hmac
    have hcongr := runLevelAux_congr
      { tokens := ts.tokens, index := ts.index + 1, macros := ts.macros }
      ts rfl rfl
    refine ⟨?_, ?_, e3, ?_⟩
    · rw [hd, hdrop, List.take_succ_cons, e1]
      simp
    · rw [hd,
        runLevelAux_succ_step ts ts.index _ level token level' h hmac' hstep]
      rw [← hcongr]
      exact e2
    · intro j hj1 hj2 habs
      obtain ⟨hne, ⟨lv, hrun, htop⟩, hpeek⟩ := habs
      rcases Nat.eq_or_lt_of_le hj1 with hj0 | hjgt
      · rw [← hj0] at hrun hpeek
        rw [Nat.sub_self] at hrun
        have hlv : lv = level := by
          have h0 : runLevelAux ts ts.index 0 level = some level := rfl
          rw [h0] at hrun
          cases hrun
          rfl
        rw [hlv] at htop
        have hne' : tokens ≠ [] := by
          rcases hne with hne | hne
          · exact hne
          · omega
        have hemp : tokens.isEmpty = false := by
          cases tokens with
          | nil => exact absurd rfl hne'
          | cons a l => rfl
        apply hcond
        have hpeek' : TokenStream.peekCommaOrCloseParen ts = true := hpeek
        simp [hemp, htop, hpeek']
      · have hjd : j - ts.index = (j - (ts.index + 1)) + 1 := by omega
        rw [hjd,
          runLevelAux_succ_step ts ts.index _ level token level' h hmac' hstep]
          at hrun
        rw [← hcongr] at hrun
        exact e4 j (by omega) hj2
          ⟨Or.inl (by simp), ⟨lv, hrun, htop⟩, hpeek⟩

end Efmt.Items

namespace Efmt.Items

open Efmt

/-- C5: macro argument capture (`MacroArg::parse`) consumes at least one
token, the captured token sequence is exactly the slice of the stream it
consumed, replaying the five nesting counters (`levelStep`, via
`runLevelAux`: `()`, `{}`, `[]`, `<< >>` and `end`-closed blocks with the
`fun` one/two-token lookahead, macro-expanded tokens changing no counter)
over that slice ends with all counters at zero, the next token at the
stop position is a top-level `,` or `)`, and no strictly earlier position
inside the consumed slice already had all counters at zero with a `,` or
`)` next — i.e. capture stops exactly at the first such position. -/
theorem macroArg_capture_char (ts : TokenStream) (v : MacroArg)
    (ts₂ : TokenStream) (hok : MacroArg.parse ts = PResult.ok v ts₂) :
    ts.index < ts₂.index ∧
    v.tokens = (ts.tokens.drop ts.index).take (ts₂.index - ts.index) ∧
    runLevelAux ts ts.index (ts₂.index - ts.index) Level.zero =
      some Level.zero ∧
    TokenStream.peekCommaOrCloseParen ts₂ = true ∧
    (∀ j, ts.index < j → j < ts₂.index →
      ¬((∃ lv, runLevelAux ts ts.index (j - ts.index) Level.zero =
            some lv ∧ lv.isToplevel = true) ∧
        TokenStream.peekCommaOrCloseParen { ts with index := j } = true)) := by
  obtain ⟨e1, e2, e3, e4⟩ :=
    MacroArg.parseLoop_char ts [] Level.zero v ts₂ hok
  obtain ⟨-, -, -, -, s5⟩ :=
    MacroArg.parseLoop_ok_state ts [] Level.zero v ts₂ hok
  refine ⟨s5 rfl, by simpa using e1, e2, e3, ?_⟩
  intro j hj1 hj2 habs
  exact e4 j (Nat.le_of_lt hj1) hj2 ⟨Or.inr hj1, habs.1, habs.2⟩

/-- Witness for C5 at the concrete stream `a ,`: the capture succeeds,
takes exactly the single token `a`, and the characterization holds. -/
theorem macroArg_capture_char_witness :
    MacroArg.parse ⟨[Token.atom ⟨"a", ⟨0, 1⟩⟩,
        Token.symbol ⟨Sym.comma, ⟨1, 2⟩⟩], 0, []⟩ =
      PResult.ok ⟨[Token.atom ⟨"a", ⟨0, 1⟩⟩]⟩
        ⟨[Token.atom ⟨"a", ⟨0, 1⟩⟩,
          Token.symbol ⟨Sym.comma, ⟨1, 2⟩⟩], 1, []⟩ ∧
    ((0 : Nat) < 1 ∧
     [Token.atom ⟨"a", ⟨0, 1⟩⟩] =
       (([Token.atom ⟨"a", ⟨0, 1⟩⟩,
          Token.symbol ⟨Sym.comma, ⟨1, 2⟩⟩].drop 0).take (1 - 0)) ∧
     runLevelAux ⟨[Token.atom ⟨"a", ⟨0, 1⟩⟩,
         Token.symbol ⟨Sym.comma, ⟨1, 2⟩⟩], 0, []⟩ 0 (1 - 0) Level.zero =
       some Level.zero ∧
     TokenStream.peekCommaOrCloseParen ⟨[Token.atom ⟨"a", ⟨0, 1⟩⟩,
         Token.symbol ⟨Sym.comma, ⟨1, 2⟩⟩], 1, []⟩ = true ∧
     (∀ j, 0 < j → j < 1 →
       ¬((∃ lv, runLevelAux ⟨[Token.atom ⟨"a", ⟨0, 1⟩⟩,
             Token.symbol ⟨Sym.comma, ⟨1, 2⟩⟩], 0, []⟩ 0 (j - 0)
             Level.zero = some lv ∧ lv.isToplevel = true) ∧
         TokenStream.peekCommaOrCloseParen ⟨[Token.atom ⟨"a", ⟨0, 1⟩⟩,
             Token.symbol ⟨Sym.comma, ⟨1, 2⟩⟩], j, []⟩ = true))) := by
  have hok : MacroArg.parse ⟨[Token.atom ⟨"a", ⟨0, 1⟩⟩,
      Token.symbol ⟨Sym.comma, ⟨1, 2⟩⟩], 0, []⟩ =
      PResult.ok ⟨[Token.atom ⟨"a", ⟨0, 1⟩⟩]⟩
        ⟨[Token.atom ⟨"a", ⟨0, 1⟩⟩,
          Token.symbol ⟨Sym.comma, ⟨1, 2⟩⟩], 1, []⟩ := by
    simp [MacroArg.parse, MacroArg.parseLoop, levelStep,
      TokenStream.peekCommaOrCloseParen, TokenStream.peekSymbolIs,
      Level.isToplevel, Level.zero, Token.startPosition]
  exact ⟨hok, macroArg_capture_char _ _ _ hok⟩

end Efmt.Items

namespace Efmt.Layout

open Efmt.Fmt

theorem lexFold_append (xs ys : List Char) (st : LexSt) :
    lexFold (xs ++ ys) st =
      match lexFold xs st with
      | Option.none => Option.none
      | some (t₁, st₁) =>
        match lexFold ys st₁ with
        | Option.none => Option.none
        | some (t₂, st₂) => some (t₁ ++ t₂, st₂) := by
  induction xs generalizing st with
  | nil =>
    simp only [List.nil_append, lexFold]
    rcases lexFold ys st with - | ⟨t₂, st₂⟩ <;> simp
  | cons c rest ih =>
    rw [show (c :: rest) ++ ys = c :: (rest ++ ys) from rfl]
    conv_lhs => rw [lexFold]
    conv_rhs => rw [lexFold]
    rcases hs : lexStep st c with - | ⟨t₁, st₁⟩
    · simp [hs]
    · simp only [hs]
      rw [ih st₁]
      rcases lexFold rest st₁ with - | ⟨t₂, st₂⟩
      · rfl
      · dsimp only
        rcases lexFold ys st₂ with - | ⟨t₃, st₃⟩
        · rfl
        · dsimp only
          rw [List.append_assoc]

theorem lexStep_flush (st : LexSt) (fl : List LTok) (c : Char)
    (hc : isAlnumCh c = false) (hfl : st.flush = some fl) :
    lexStep st c =
      match lexStep LexSt.clean c with
      | Option.none => Option.none
      | some p => some (fl ++ p.1, p.2) := by
  cases st with
  | clean =>
    have hfl' : fl = [] := by
      simp only [LexSt.flush] at hfl
      exact (Option.some.injEq _ _ ▸ hfl).symm
    subst hfl'
    rcases lexStep LexSt.clean c with - | ⟨t, st'⟩ <;> simp
  | run cs =>
    simp only [LexSt.flush] at hfl
    rcases hcl : classifyRun cs with - | tok
    · rw [hcl] at hfl
      exact Option.noConfusion hfl
    · rw [hcl] at hfl
      have hfl' : fl = [tok] := by
        simpa using hfl.symm
      subst hfl'
      simp only [lexStep, hc, Bool.false_eq_true, if_false, LexSt.flush,
        hcl, Option.map_some']
      split_ifs <;> simp

theorem lexFold_flush (c : Char) (ys : List Char) (st : LexSt)
    (fl : List LTok) (hc : isAlnumCh c = false) (hfl : st.flush = some fl) :
    lexFold (c :: ys) st =
      match lexFold (c :: ys) LexSt.clean with
      | Option.none => Option.none
      | some p => some (fl ++ p.1, p.2) := by
  conv_lhs => rw [lexFold]
  rw [lexStep_flush st fl c hc hfl]
  rcases hs : lexStep LexSt.clean c with - | ⟨t₁, st₁⟩
  · simp [lexFold, hs]
  · simp only [lexFold, hs]
    rcases lexFold ys st₁ with - | ⟨t₂, st₂⟩
    · rfl
    · simp [List.append_assoc]

theorem lexFold_ws (l : List Char) (h : ∀ c ∈ l, c = ' ' ∨ c = '\n') :
    lexFold l LexSt.clean = some ([], LexSt.clean) := by
  induction l with
  | nil => rfl
  | cons c rest ih =>
    have hstep : lexStep LexSt.clean c = some ([], LexSt.clean) := by
      rcases h c (by simp) with hc | hc <;> subst hc <;> rfl
    simp [lexFold, hstep, ih (fun c hc => h c (by simp [hc]))]

theorem lexFold_run (cs : List Char) : ∀ acc, cs.all isAlnumCh = true →
    lexFold cs (LexSt.run acc) = some ([], LexSt.run (acc ++ cs)) := by
  induction cs with
  | nil => intro acc _; simp [lexFold]
  | cons c rest ih =>
    intro acc h
    simp only [List.all_cons, Bool.and_eq_true] at h
    have hstep : lexStep (LexSt.run acc) c =
        some ([], LexSt.run (acc ++ [c])) := by
      simp [lexStep, h.1]
    simp [lexFold, hstep, ih (acc ++ [c]) h.2]

theorem classify_shape (cs : List Char) (tok : LTok)
    (h : classifyRun cs = some tok) :
    cs ≠ [] ∧ cs.all isAlnumCh = true := by
  unfold classifyRun at h
  rcases hb : (cs.isEmpty || !cs.all isAlnumCh) with - | -
  · have h2 := Bool.or_eq_false_iff.mp hb
    constructor
    · intro habs
      rw [habs] at h2
      simp at h2
    · simpa using h2.2
  · rw [hb] at h
    simp at h

theorem leaf_emits (s : String) (tok : LTok)
    (h : classifyRun s.data = some tok) : EmitsGood s [tok] := by
  obtain ⟨hne, hal⟩ := classify_shape _ _ h
  rcases hd : s.data with - | ⟨c, rest⟩
  · exact absurd hd hne
  · rw [hd] at hal
    simp only [List.all_cons, Bool.and_eq_true] at hal
    have hstep : lexStep LexSt.clean c = some ([], LexSt.run [c]) := by
      simp [lexStep, hal.1]
    refine ⟨[], LexSt.run s.data, [tok], ?_, ?_, rfl⟩
    · rw [hd]
      simp [lexFold, hstep, lexFold_run rest [c] hal.2]
    · simp [LexSt.flush, h]

theorem emitsC_append (w₁ w₂ : String) (T₁ T₂ : List LTok)
    (h1 : EmitsC w₁ T₁) (h2 : EmitsC w₂ T₂) :
    EmitsC (w₁ ++ w₂) (T₁ ++ T₂) := by
  unfold EmitsC at *
  simp [String.data_append, lexFold_append, h1, h2]

theorem emitsC_good (w₁ w₂ : String) (T₁ T₂ : List LTok)
    (h1 : EmitsC w₁ T₁) (h2 : EmitsGood w₂ T₂) :
    EmitsGood (w₁ ++ w₂) (T₁ ++ T₂) := by
  obtain ⟨t₀, st, fl, ha, hb, hc⟩ := h2
  have h1' : lexFold w₁.data LexSt.clean = some (T₁, LexSt.clean) := h1
  exact ⟨T₁ ++ t₀, st, fl,
    by simp [String.data_append, lexFold_append, h1', ha],
    hb, by rw [List.append_assoc, hc]⟩

theorem good_emitsC (w₁ w₂ : String) (T₁ T₂ : List LTok) (c : Char)
    (cs : List Char) (h1 : EmitsGood w₁ T₁) (h2 : EmitsC w₂ T₂)
    (hw : w₂.data = c :: cs) (hc : isAlnumCh c = false) :
    EmitsC (w₁ ++ w₂) (T₁ ++ T₂) := by
  obtain ⟨t₀, st, fl, ha, hb, hT⟩ := h1
  have h2' : lexFold w₂.data LexSt.clean = some (T₂, LexSt.clean) := h2
  have h3 := lexFold_flush c cs st fl hc hb
  rw [← hw] at h3
  rw [h2'] at h3
  show lexFold (w₁ ++ w₂).data LexSt.clean = some (T₁ ++ T₂, LexSt.clean)
  simp only [String.data_append, lexFold_append, ha, h3]
  rw [← hT]
  simp [List.append_assoc]

theorem good_good (w₁ w₂ : String) (T₁ T₂ : List LTok) (c : Char)
    (cs : List Char) (h1 : EmitsGood w₁ T₁) (h2 : EmitsGood w₂ T₂)
    (hw : w₂.data = c :: cs) (hc : isAlnumCh c = false) :
    EmitsGood (w₁ ++ w₂) (T₁ ++ T₂) := by
  obtain ⟨t₀, st, fl, ha, hb, hT⟩ := h1
  obtain ⟨t₀', st', fl', ha', hb', hT'⟩ := h2
  have h3 := lexFold_flush c cs st fl hc hb
  rw [← hw] at h3
  rw [ha'] at h3
  refine ⟨t₀ ++ (fl ++ t₀'), st', fl',
    by simp [String.data_append, lexFold_append, ha, h3], hb', ?_⟩
  rw [← hT, ← hT']
  simp [List.append_assoc]

theorem emitsC_to_good (w : String) (T : List LTok) (h : EmitsC w T) :
    EmitsGood w T :=
  ⟨T, LexSt.clean, [], h, rfl, by simp⟩

theorem emitsC_lparen : EmitsC "(" [LTok.lparen] := rfl

theorem emitsC_rparen : EmitsC ")" [LTok.rparen] := rfl

theorem emitsC_comma : EmitsC "," [LTok.comma] := rfl

theorem emitsC_plusSp : EmitsC " +" [LTok.plus] := rfl

theorem emitsC_catchSp : EmitsC "catch " [LTok.catchKw] := rfl

end Efmt.Layout

namespace Efmt.Layout

open Efmt.Fmt

theorem pendStr_nothing (f : Formatter)
    (h : f.pending = Pending.nothing) : pendStr f = "" := by
  simp [pendStr, h]

theorem pendStr_ws (f : Formatter) :
    ∀ c ∈ (pendStr f).data, c = ' ' ∨ c = '\n' := by
  intro c hmem
  cases hp : f.pending with
  | nothing =>
    rw [pendStr_nothing f hp] at hmem
    simp at hmem
  | space =>
    simp only [pendStr, hp] at hmem
    simp at hmem
    exact Or.inl hmem
  | newline =>
    simp only [pendStr, hp, String.data_append] at hmem
    rcases List.mem_append.mp hmem with hmem | hmem
    · simp at hmem
      exact Or.inr hmem
    · exact Or.inl (List.eq_of_mem_replicate hmem)

theorem pendStr_emitsC (f : Formatter) : EmitsC (pendStr f) [] :=
  lexFold_ws _ (pendStr_ws f)

theorem write_pend (f : Formatter) (s : String) :
    (f.write s).buf = f.buf ++ (pendStr f ++ s) ∧
    (f.write s).pending = Pending.nothing := by
  cases hp : f.pending <;>
    simp [Formatter.write, pendStr, hp, String.append_assoc,
      String.empty_append]

theorem needs_buf_pend (f : Formatter) :
    f.needsSpace.buf = f.buf ∧ f.needsNewline.buf = f.buf ∧
    f.needsSpace.indent = f.indent ∧ f.needsNewline.indent = f.indent := by
  cases hp : f.pending <;>
    simp [Formatter.needsSpace, Formatter.needsNewline, hp]

theorem withSubregion_emits (tr : Nat) (body : Formatter → Formatter)
    (f : Formatter) (T : List LTok)
    (h : ∀ g : Formatter, g.buf = f.buf → g.pending = f.pending →
      ∃ w, (body g).buf = g.buf ++ w ∧ EmitsGood w T ∧
        (body g).pending = Pending.nothing) :
    ∃ w, (withSubregion tr body f).buf = f.buf ++ w ∧ EmitsGood w T ∧
      (withSubregion tr body f).pending = Pending.nothing := by
  obtain ⟨w₁, hw₁⟩ :=
    h { f with indent := f.currentColumn, multiline := false } rfl rfl
  obtain ⟨w₂, hw₂⟩ :=
    h { f with indent := f.currentColumn, multiline := true } rfl rfl
  unfold withSubregion
  dsimp only
  split
  · exact ⟨w₁, hw₁.1, hw₁.2.1, hw₁.2.2⟩
  · exact ⟨w₂, hw₂.1, hw₂.2.1, hw₂.2.2⟩

theorem data_head_plusSp (x : String) :
    (" +" ++ x).data.head? = some ' ' := by
  have hd : (" +" ++ x).data = ' ' :: '+' :: x.data := by
    rw [String.data_append]
    rfl
  rw [hd]
  rfl

end Efmt.Layout

namespace Efmt.Layout

open Efmt.Fmt

theorem fmtE_atom (s : String) (f : Formatter) :
    fmtE (LExpr.atom s) f = f.write s := rfl

theorem fmtE_var (s : String) (f : Formatter) :
    fmtE (LExpr.var s) f = f.write s := rfl

theorem fmtE_int (s : String) (f : Formatter) :
    fmtE (LExpr.int s) f = f.write s := rfl

theorem fmtE_call (n : String) (args : List LExpr) (f : Formatter) :
    fmtE (LExpr.call n args) f =
      (withSubregion 1 (fun g => fmtArgs args g)
        ((f.write n).write "(")).write ")" := rfl

theorem fmtE_binop (first : LExpr) (rest : List LExpr) (f : Formatter) :
    fmtE (LExpr.binop first rest) f = fmtChain rest (fmtE first f) := rfl

theorem fmtE_catch (e : LExpr) (f : Formatter) :
    fmtE (LExpr.catchE e) f =
      { fmtE e { f.write "catch " with
          indent := (f.write "catch ").currentColumn } with
        indent := (f.write "catch ").indent } := rfl

theorem fmtArgs_one (a : LExpr) (f : Formatter) :
    fmtArgs [a] f = fmtE a f := rfl

theorem fmtArgs_cons (a b : LExpr) (rest : List LExpr) (f : Formatter) :
    fmtArgs (a :: b :: rest) f =
      fmtArgs (b :: rest)
        (if ((fmtE a f).write ",").multiline then
          ((fmtE a f).write ",").needsNewline
         else ((fmtE a f).write ",").needsSpace) := rfl

theorem fmtChain_nil (f : Formatter) : fmtChain [] f = f := rfl

theorem fmtChain_cons (t : LExpr) (rest : List LExpr) (f : Formatter) :
    fmtChain (t :: rest) f =
      fmtChain rest (fmtE t
        (if decide ((f.write " +").currentColumn + 1 + oneLineLen t >
            (f.write " +").maxColumns) then
          (f.write " +").needsNewline
         else (f.write " +").needsSpace)) := rfl

end Efmt.Layout

namespace Efmt.Layout

open Efmt.Fmt

theorem fmt_emits :
    ∀ e, wfE e = true → ∀ f : Formatter, ∃ w,
      (fmtE e f).buf = f.buf ++ (pendStr f ++ w) ∧
      EmitsGood w (cstTokens e) ∧
      (fmtE e f).pending = Pending.nothing := by
  refine Efmt.Layout.cstTokens.induct
    (fun e => wfE e = true → ∀ f : Formatter, ∃ w,
      (fmtE e f).buf = f.buf ++ (pendStr f ++ w) ∧
      EmitsGood w (cstTokens e) ∧
      (fmtE e f).pending = Pending.nothing)
    (fun ts => wfChain ts = true → ts ≠ [] → ∀ f : Formatter, ∃ w,
      (fmtChain ts f).buf = f.buf ++ (pendStr f ++ w) ∧
      EmitsGood w (cstTokensChain ts) ∧
      w.data.head? = some ' ' ∧
      (fmtChain ts f).pending = Pending.nothing)
    (fun as => wfArgs as = true → as ≠ [] → ∀ f : Formatter, ∃ w,
      (fmtArgs as f).buf = f.buf ++ (pendStr f ++ w) ∧
      EmitsGood w (cstTokensArgs as) ∧
      (fmtArgs as f).pending = Pending.nothing)
    ?_ ?_ ?_ ?_ ?_ ?_ ?_ ?_ ?_ ?_ ?_
  · -- atom leaf
    intro s hwf f
    have hcl : classifyRun s.data = some (LTok.atom s) := by
      simpa [wfE, tokWf] using hwf
    obtain ⟨hb, hp⟩ := write_pend f s
    rw [fmtE_atom]
    exact ⟨s, hb, by simpa [cstTokens] using leaf_emits s _ hcl, hp⟩
  · -- var leaf
    intro s hwf f
    have hcl : classifyRun s.data = some (LTok.var s) := by
      simpa [wfE, tokWf] using hwf
    obtain ⟨hb, hp⟩ := write_pend f s
    rw [fmtE_var]
    exact ⟨s, hb, by simpa [cstTokens] using leaf_emits s _ hcl, hp⟩
  · -- int leaf
    intro s hwf f
    have hcl : classifyRun s.data = some (LTok.int s) := by
      simpa [wfE, tokWf] using hwf
    obtain ⟨hb, hp⟩ := write_pend f s
    rw [fmtE_int]
    exact ⟨s, hb, by simpa [cstTokens] using leaf_emits s _ hcl, hp⟩
  · -- call
    intro n args ih hwf f
    simp only [wfE, Bool.and_eq_true] at hwf
    obtain ⟨hn, hargs⟩ := hwf
    have hcl : classifyRun n.data = some (LTok.atom n) := by
      simpa [tokWf] using hn
    obtain ⟨hb1, hp1⟩ := write_pend f n
    obtain ⟨hb2, hp2⟩ := write_pend (f.write n) "("
    have hsub : ∃ w,
        (withSubregion 1 (fun g => fmtArgs args g)
          ((f.write n).write "(")).buf = ((f.write n).write "(").buf ++ w ∧
        EmitsGood w (cstTokensArgs args) ∧
        (withSubregion 1 (fun g => fmtArgs args g)
          ((f.write n).write "(")).pending = Pending.nothing := by
      apply withSubregion_emits
      intro g hgb hgp
      have hgp' : g.pending = Pending.nothing := by rw [hgp, hp2]
      rcases args with - | ⟨a, args'⟩
      · refine ⟨"", ?_, ?_, ?_⟩
        · have : fmtArgs [] g = g := rfl
          rw [this]
          have he : (g.buf ++ "" : String) = g.buf := by
            simp
          rw [he]
        · exact emitsC_to_good "" _ rfl
        · have : fmtArgs [] g = g := rfl
          rw [this, hgp']
      · obtain ⟨w, hwb, hwg, hwp⟩ := ih hargs (by simp) g
        refine ⟨w, ?_, hwg, hwp⟩
        rw [hwb, pendStr_nothing g hgp', String.empty_append]
    obtain ⟨w_r, hb3, hg3, hp3⟩ := hsub
    obtain ⟨hb4, hp4⟩ := write_pend
      (withSubregion 1 (fun g => fmtArgs args g) ((f.write n).write "(")) ")"
    rw [fmtE_call]
    refine ⟨((n ++ "(") ++ w_r) ++ ")", ?_, ?_, hp4⟩
    · rw [hb4, pendStr_nothing _ hp3, String.empty_append, hb3, hb2,
        pendStr_nothing _ hp1, String.empty_append, hb1]
      simp [String.append_assoc]
    · have e1 : EmitsGood n [LTok.atom n] := leaf_emits n _ hcl
      have e2 : EmitsC (n ++ "(") ([LTok.atom n] ++ [LTok.lparen]) :=
        good_emitsC n "(" _ _ '(' [] e1 emitsC_lparen rfl (by decide)
      have e3 := emitsC_good _ w_r _ (cstTokensArgs args) e2 hg3
      have e4 := good_emitsC _ ")" _ _ ')' [] e3 emitsC_rparen rfl (by decide)
      have e5 := emitsC_to_good _ _ e4
      simpa [cstTokens, List.append_assoc] using e5
  · -- binop
    intro first rest ih1 ih2 hwf f
    simp only [wfE, Bool.and_eq_true] at hwf
    obtain ⟨⟨⟨hwf1, hterm⟩, hne⟩, hchain⟩ := hwf
    have hrne : rest ≠ [] := by
      intro habs
      rw [habs] at hne
      simp at hne
    obtain ⟨w₁, hb1, hg1, hp1⟩ := ih1 hwf1 f
    obtain ⟨w₂, hb2, hg2, hh2, hp2⟩ := ih2 hchain hrne (fmtE first f)
    rw [fmtE_binop]
    refine ⟨w₁ ++ w₂, ?_, ?_, ?_⟩
    · rw [hb2, pendStr_nothing _ hp1, String.empty_append, hb1]
      simp [String.append_assoc]
    · obtain ⟨cs, hcs⟩ : ∃ cs, w₂.data = ' ' :: cs := by
        rcases hd : w₂.data with - | ⟨c, cs⟩
        · rw [hd] at hh2
          exact absurd hh2 (by simp)
        · rw [hd] at hh2
          simp at hh2
          exact ⟨cs, by rw [hh2]⟩
      have := good_good w₁ w₂ _ _ ' ' cs hg1 hg2 hcs (by decide)
      simpa [cstTokens] using this
    · exact hp2
  · -- catch
    intro e ih hwf f
    have hwf' : wfE e = true := by simpa [wfE] using hwf
    obtain ⟨hb1, hp1⟩ := write_pend f "catch "
    have hfp : ({ f.write "catch " with
        indent := (f.write "catch ").currentColumn } :
        Formatter).pending = Pending.nothing := hp1
    obtain ⟨w_b, hb2, hg2, hp2⟩ := ih hwf'
      { f.write "catch " with indent := (f.write "catch ").currentColumn }
    rw [fmtE_catch]
    refine ⟨"catch " ++ w_b, ?_, ?_, hp2⟩
    · show (fmtE e { f.write "catch " with
          indent := (f.write "catch ").currentColumn }).buf =
        f.buf ++ (pendStr f ++ ("catch " ++ w_b))
      rw [hb2, pendStr_nothing _ hfp, String.empty_append]
      show (f.write "catch ").buf ++ w_b = _
      rw [hb1]
      simp [String.append_assoc]
    · have e1 := emitsC_good "catch " w_b [LTok.catchKw] (cstTokens e)
        emitsC_catchSp hg2
      simpa [cstTokens] using e1
  · -- chain []
    intro _ hne
    exact absurd rfl hne
  · -- chain cons
    intro t rest ih1 ih2 hwf hne f
    simp only [wfChain, Bool.and_eq_true] at hwf
    obtain ⟨⟨hwt, hterm⟩, hwrest⟩ := hwf
    obtain ⟨hb1, hp1⟩ := write_pend f " +"
    rw [fmtChain_cons]
    set F2 : Formatter :=
      if decide ((f.write " +").currentColumn + 1 + oneLineLen t >
          (f.write " +").maxColumns) then
        (f.write " +").needsNewline
      else (f.write " +").needsSpace with hF2
    have hb2 : F2.buf = (f.write " +").buf := by
      rw [hF2]
      split
      · exact (needs_buf_pend _).2.1
      · exact (needs_buf_pend _).1
    obtain ⟨w_t, hb3, hg3, hp3⟩ := ih1 hwt F2
    have ehead : EmitsC (" +" ++ pendStr F2) ([LTok.plus] ++ []) :=
      emitsC_append _ _ _ _ emitsC_plusSp (pendStr_emitsC F2)
    rcases rest with - | ⟨r₁, rest'⟩
    · rw [fmtChain_nil]
      refine ⟨(" +" ++ pendStr F2) ++ w_t, ?_, ?_, ?_, hp3⟩
      · rw [hb3, hb2, hb1]
        simp [String.append_assoc]
      · have e2 := emitsC_good _ w_t _ (cstTokens t) ehead hg3
        simpa [cstTokensChain] using e2
      · rw [String.append_assoc]
        exact data_head_plusSp _
    · obtain ⟨w_r, hb4, hg4, hh4, hp4⟩ := ih2 hwrest (by simp) (fmtE t F2)
      refine ⟨((" +" ++ pendStr F2) ++ w_t) ++ w_r, ?_, ?_, ?_, hp4⟩
      · rw [hb4, pendStr_nothing _ hp3, String.empty_append, hb3, hb2, hb1]
        simp [String.append_assoc]
      · obtain ⟨cs, hcs⟩ : ∃ cs, w_r.data = ' ' :: cs := by
          rcases hd : w_r.data with - | ⟨c, cs⟩
          · rw [hd] at hh4
            exact absurd hh4 (by simp)
          · rw [hd] at hh4
            simp at hh4
            exact ⟨cs, by rw [hh4]⟩
        have e2 := emitsC_good _ w_t _ (cstTokens t) ehead hg3
        have e3 := good_good _ w_r _ (cstTokensChain (r₁ :: rest')) ' ' cs
          e2 hg4 hcs (by decide)
        simpa [cstTokensChain, List.append_assoc] using e3
      · rw [String.append_assoc, String.append_assoc]
        exact data_head_plusSp _
  · -- args []
    intro _ hne
    exact absurd rfl hne
  · -- args [a]
    intro a ih hwf hne f
    have heq : wfArgs [a] = ((wfE a && isBLevel a) && wfArgs []) := rfl
    rw [heq, Bool.and_eq_true, Bool.and_eq_true] at hwf
    obtain ⟨⟨hwa, -⟩, -⟩ := hwf
    obtain ⟨w, hb, hg, hp⟩ := ih hwa f
    rw [fmtArgs_one]
    exact ⟨w, hb, by simpa [cstTokensArgs] using hg, hp⟩
  · -- args cons (rest nonempty)
    intro a rest hrne ih1 ih3 hwf hne f
    have heq : wfArgs (a :: rest) =
        ((wfE a && isBLevel a) && wfArgs rest) := rfl
    rw [heq, Bool.and_eq_true, Bool.and_eq_true] at hwf
    obtain ⟨⟨hwa, -⟩, hwrest⟩ := hwf
    rcases rest with - | ⟨b, rest'⟩
    · exact absurd rfl (fun h => hrne h)
    rw [fmtArgs_cons]
    obtain ⟨w_a, hb1, hg1, hp1⟩ := ih1 hwa f
    obtain ⟨hb2, hp2⟩ := write_pend (fmtE a f) ","
    set F3 : Formatter :=
      if ((fmtE a f).write ",").multiline then
        ((fmtE a f).write ",").needsNewline
      else ((fmtE a f).write ",").needsSpace with hF3
    have hb3 : F3.buf = ((fmtE a f).write ",").buf := by
      rw [hF3]
      split
      · exact (needs_buf_pend _).2.1
      · exact (needs_buf_pend _).1
    obtain ⟨w_r, hb4, hg4, hp4⟩ := ih3 hwrest (by simp) F3
    refine ⟨((w_a ++ ",") ++ pendStr F3) ++ w_r, ?_, ?_, hp4⟩
    · rw [hb4, hb3, hb2, pendStr_nothing _ hp1, String.empty_append, hb1]
      simp [String.append_assoc]
    · have e2 : EmitsC (w_a ++ ",") (cstTokens a ++ [LTok.comma]) :=
        good_emitsC w_a "," _ _ ',' [] hg1 emitsC_comma rfl (by decide)
      have e3 : EmitsC ((w_a ++ ",") ++ pendStr F3)
          ((cstTokens a ++ [LTok.comma]) ++ []) :=
        emitsC_append _ _ _ _ e2 (pendStr_emitsC F3)
      have e4 := emitsC_good _ w_r _ (cstTokensArgs (b :: rest')) e3 hg4
      simpa [cstTokensArgs, List.append_assoc] using e4

end Efmt.Layout

namespace Efmt.Layout

theorem emits_tokenize (w : String) (T : List LTok)
    (h : EmitsGood w T) : tokenize w = some T := by
  obtain ⟨t₀, st, fl, h1, h2, h3⟩ := h
  simp [tokenize, h1, h2, h3]

theorem flush_wf (st : LexSt) (fl : List LTok) (h : st.flush = some fl)
    (hcl : ∀ cs tok, classifyRun cs = some tok → tokWf tok = true) :
    ∀ tk ∈ fl, tokWf tk = true := by
  cases st with
  | clean =>
    have : fl = [] := by simpa [LexSt.flush] using h.symm
    subst this
    simp
  | run cs =>
    simp only [LexSt.flush] at h
    rcases hc : classifyRun cs with - | tok
    · rw [hc] at h
      exact Option.noConfusion h
    · rw [hc] at h
      have : fl = [tok] := by simpa using h.symm
      subst this
      intro tk htk
      simp at htk
      subst htk
      exact hcl cs tk hc

theorem classify_wf (cs : List Char) (tok : LTok)
    (h : classifyRun cs = some tok) : tokWf tok = true := by
  have h' := h
  unfold classifyRun at h'
  split at h'
  · exact Option.noConfusion h'
  · split at h'
    · obtain rfl := (Option.some.inj h').symm
      exact decide_eq_true h
    · split at h'
      · split at h'
        · split at h'
          · obtain rfl := (Option.some.inj h').symm
            rfl
          · obtain rfl := (Option.some.inj h').symm
            exact decide_eq_true h
        · split at h'
          · obtain rfl := (Option.some.inj h').symm
            exact decide_eq_true h
          · exact Option.noConfusion h'
      · exact Option.noConfusion h'

end Efmt.Layout

namespace Efmt.Layout

theorem lexStep_wf (st : LexSt) (c : Char) (fl : List LTok) (st' : LexSt)
    (h : lexStep st c = some (fl, st')) : ∀ tk ∈ fl, tokWf tk = true := by
  unfold lexStep at h
  split at h
  · split at h
    · injection h with h1
      injection h1 with h2 h3
      subst h2
      simp
    · injection h with h1
      injection h1 with h2 h3
      subst h2
      simp
  · split at h
    · exact Option.noConfusion h
    next fl₀ hflush =>
      have hwf₀ : ∀ tk ∈ fl₀, tokWf tk = true :=
        flush_wf st fl₀ hflush classify_wf
      split at h
      · injection h with h1
        injection h1 with h2 h3
        subst h2
        exact hwf₀
      · split at h
        · injection h with h1
          injection h1 with h2 h3
          subst h2
          intro tk htk
          rcases List.mem_append.mp htk with htk | htk
          · exact hwf₀ tk htk
          · simp at htk
            subst htk
            rfl
        · split at h
          · injection h with h1
            injection h1 with h2 h3
            subst h2
            intro tk htk
            rcases List.mem_append.mp htk with htk | htk
            · exact hwf₀ tk htk
            · simp at htk
              subst htk
              rfl
          · split at h
            · injection h with h1
              injection h1 with h2 h3
              subst h2
              intro tk htk
              rcases List.mem_append.mp htk with htk | htk
              · exact hwf₀ tk htk
              · simp at htk
                subst htk
                rfl
            · split at h
              · injection h with h1
                injection h1 with h2 h3
                subst h2
                intro tk htk
                rcases List.mem_append.mp htk with htk | htk
                · exact hwf₀ tk htk
                · simp at htk
                  subst htk
                  rfl
              · exact Option.noConfusion h

theorem lexFold_wf (cs : List Char) : ∀ st toks st',
    lexFold cs st = some (toks, st') → ∀ tk ∈ toks, tokWf tk = true := by
  induction cs with
  | nil =>
    intro st toks st' h
    injection h with h1
    injection h1 with h2 h3
    subst h2
    simp
  | cons c rest ih =>
    intro st toks st' h
    rw [lexFold] at h
    split at h
    · exact Option.noConfusion h
    next t₁ st₁ hstep =>
      split at h
      · exact Option.noConfusion h
      next t₂ st₂ hfold =>
        injection h with h1
        injection h1 with h2 h3
        subst h2
        intro tk htk
        rcases List.mem_append.mp htk with htk | htk
        · exact lexStep_wf st c t₁ st₁ hstep tk htk
        · exact ih st₁ t₂ st₂ hfold tk htk

theorem tokenize_wf (s : String) (toks : List LTok)
    (h : tokenize s = some toks) : ∀ tk ∈ toks, tokWf tk = true := by
  unfold tokenize at h
  split at h
  · exact Option.noConfusion h
  next ts st hfold =>
    split at h
    · exact Option.noConfusion h
    next fl hflush =>
      obtain rfl := (Option.some.inj h).symm
      intro tk htk
      rcases List.mem_append.mp htk with htk | htk
      · exact lexFold_wf s.data LexSt.clean ts st hfold tk htk
      · exact flush_wf st fl hflush classify_wf tk htk

end Efmt.Layout

namespace Efmt.Layout

theorem term_blevel (e : LExpr) (h : isTerm e = true) :
    isBLevel e = true := by
  cases e <;> first | rfl | exact Bool.noConfusion h

theorem wfChain_forall (as : List LExpr) :
    wfChain as = true ↔ ∀ t ∈ as, wfE t = true ∧ isTerm t = true := by
  induction as with
  | nil => simp [wfChain]
  | cons t rest ih =>
    have heq : wfChain (t :: rest) = ((wfE t && isTerm t) && wfChain rest) :=
      rfl
    rw [heq, Bool.and_eq_true, Bool.and_eq_true, ih, List.forall_mem_cons]

theorem wfArgs_forall (as : List LExpr) :
    wfArgs as = true ↔ ∀ t ∈ as, wfE t = true ∧ isBLevel t = true := by
  induction as with
  | nil => simp [wfArgs]
  | cons t rest ih =>
    have heq : wfArgs (t :: rest) = ((wfE t && isBLevel t) && wfArgs rest) :=
      rfl
    rw [heq, Bool.and_eq_true, Bool.and_eq_true, ih, List.forall_mem_cons]

theorem tail_wf (a : LTok) (l : List LTok)
    (h : ∀ tk ∈ a :: l, tokWf tk = true) : ∀ tk ∈ l, tokWf tk = true :=
  fun tk htk => h tk (List.mem_cons_of_mem a htk)

end Efmt.Layout

namespace Efmt.Layout

theorem parse_wf (fuel : Nat) :
    (∀ ts e r, parseT fuel ts = some (e, r) →
      (∀ tk ∈ ts, tokWf tk = true) →
      isTerm e = true ∧ wfE e = true ∧ ∀ tk ∈ r, tokWf tk = true) ∧
    (∀ ts as r, parseArgs fuel ts = some (as, r) →
      (∀ tk ∈ ts, tokWf tk = true) →
      wfArgs as = true ∧ as ≠ [] ∧ ∀ tk ∈ r, tokWf tk = true) ∧
    (∀ ts e r, parseB fuel ts = some (e, r) →
      (∀ tk ∈ ts, tokWf tk = true) →
      isBLevel e = true ∧ wfE e = true ∧ ∀ tk ∈ r, tokWf tk = true) ∧
    (∀ first acc ts e r, parseChain fuel first acc ts = some (e, r) →
      (∀ tk ∈ ts, tokWf tk = true) →
      isTerm first = true → wfE first = true →
      (∀ t ∈ acc, isTerm t = true ∧ wfE t = true) →
      isBLevel e = true ∧ wfE e = true ∧ ∀ tk ∈ r, tokWf tk = true) ∧
    (∀ ts e r, parseE fuel ts = some (e, r) →
      (∀ tk ∈ ts, tokWf tk = true) →
      wfE e = true ∧ ∀ tk ∈ r, tokWf tk = true) := by
  induction fuel with
  | zero =>
    refine ⟨?_, ?_, ?_, ?_, ?_⟩
    · intro ts e r h
      exact Option.noConfusion h
    · intro ts as r h
      exact Option.noConfusion h
    · intro ts e r h
      exact Option.noConfusion h
    · intro first acc ts e r h
      exact Option.noConfusion h
    · intro ts e r h
      exact Option.noConfusion h
  | succ fuel ih =>
    obtain ⟨ihT, ihArgs, ihB, ihChain, ihE⟩ := ih
    have armCall : ∀ (s : String) (r₂ : List LTok) (e : LExpr)
        (r : List LTok),
        (match parseArgs fuel r₂ with
         | some (args, r') => some (LExpr.call s args, r')
         | Option.none => Option.none) = some (e, r) →
        (∀ tk ∈ r₂, tokWf tk = true) → tokWf (LTok.atom s) = true →
        isTerm e = true ∧ wfE e = true ∧
          (∀ tk ∈ r, tokWf tk = true) := by
      intro s r₂ e r h hwr hwa
      rcases hA : parseArgs fuel r₂ with - | ⟨as, r'⟩
      · rw [hA] at h
        exact Option.noConfusion h
      · rw [hA] at h
        injection h with h1
        injection h1 with h2 h3
        subst h2
        subst h3
        obtain ⟨hwargs, -, hwr'⟩ := ihArgs r₂ as r' hA hwr
        refine ⟨rfl, ?_, hwr'⟩
        have heq : wfE (LExpr.call s as) =
            (tokWf (LTok.atom s) && wfArgs as) := rfl
        rw [heq, Bool.and_eq_true]
        exact ⟨hwa, hwargs⟩
    refine ⟨?_, ?_, ?_, ?_, ?_⟩
    · -- parseT
      intro ts e r h hwf
      rcases ts with - | ⟨t₁, ts₁⟩
      · exact Option.noConfusion h
      cases t₁
      case atom s =>
        have hwa : tokWf (LTok.atom s) = true := hwf _ (by simp)
        rcases ts₁ with - | ⟨t₂, ts₂⟩
        · injection h with h1
          injection h1 with h2 h3
          subst h2
          subst h3
          exact ⟨rfl, hwa, by simp⟩
        cases t₂
        case lparen =>
          rcases ts₂ with - | ⟨t₃, ts₃⟩
          · exact armCall s [] e r h (by simp) hwa
          cases t₃
          case rparen =>
            injection h with h1
            injection h1 with h2 h3
            subst h2
            subst h3
            refine ⟨rfl, ?_, ?_⟩
            · have heq : wfE (LExpr.call s []) =
                  (tokWf (LTok.atom s) && wfArgs []) := rfl
              rw [heq, Bool.and_eq_true]
              exact ⟨hwa, rfl⟩
            · exact tail_wf _ _ (tail_wf _ _ (tail_wf _ _ hwf))
          all_goals
            exact armCall s _ e r h (tail_wf _ _ (tail_wf _ _ hwf)) hwa
        all_goals
          (injection h with h1
           injection h1 with h2 h3
           subst h2
           subst h3
           exact ⟨rfl, hwa, tail_wf _ _ hwf⟩)
      case var s =>
        injection h with h1
        injection h1 with h2 h3
        subst h2
        subst h3
        exact ⟨rfl, hwf _ (by simp), tail_wf _ _ hwf⟩
      case int s =>
        injection h with h1
        injection h1 with h2 h3
        subst h2
        subst h3
        exact ⟨rfl, hwf _ (by simp), tail_wf _ _ hwf⟩
      all_goals exact Option.noConfusion h
    · -- parseArgs
      intro ts as r h hwf
      simp only [parseArgs] at h
      rcases hB : parseB fuel ts with - | ⟨e₁, r₁⟩
      · rw [hB] at h
        exact Option.noConfusion h
      rw [hB] at h
      try dsimp only at h
      obtain ⟨hbl, hwe, hwr₁⟩ := ihB ts e₁ r₁ hB hwf
      rcases r₁ with - | ⟨t, r'⟩
      · exact Option.noConfusion h
      cases t
      case comma =>
        try dsimp only at h
        rcases hA : parseArgs fuel r' with - | ⟨es, r''⟩
        · rw [hA] at h
          exact Option.noConfusion h
        rw [hA] at h
        injection h with h1
        injection h1 with h2 h3
        subst h2
        subst h3
        obtain ⟨hwes, -, hwr''⟩ := ihArgs r' es r'' hA (tail_wf _ _ hwr₁)
        refine ⟨?_, by simp, hwr''⟩
        have heq : wfArgs (e₁ :: es) =
            ((wfE e₁ && isBLevel e₁) && wfArgs es) := rfl
        rw [heq, Bool.and_eq_true, Bool.and_eq_true]
        exact ⟨⟨hwe, hbl⟩, hwes⟩
      case rparen =>
        injection h with h1
        injection h1 with h2 h3
        subst h2
        subst h3
        refine ⟨?_, by simp, tail_wf _ _ hwr₁⟩
        have heq : wfArgs [e₁] =
            ((wfE e₁ && isBLevel e₁) && wfArgs []) := rfl
        rw [heq, Bool.and_eq_true, Bool.and_eq_true]
        exact ⟨⟨hwe, hbl⟩, rfl⟩
      all_goals exact Option.noConfusion h
    · -- parseB
      intro ts e r h hwf
      simp only [parseB] at h
      rcases hT : parseT fuel ts with - | ⟨t₀, r₁⟩
      · rw [hT] at h
        exact Option.noConfusion h
      rw [hT] at h
      try dsimp only at h
      obtain ⟨hterm, hwe, hwr₁⟩ := ihT ts t₀ r₁ hT hwf
      exact ihChain t₀ [] r₁ e r h hwr₁ hterm hwe (by simp)
    · -- parseChain
      intro first acc ts e r h hwf hterm hwe hacc
      have armStop : ∀ (ts₀ : List LTok) (e : LExpr) (r : List LTok),
          (if acc.isEmpty then some (first, ts₀)
           else some (LExpr.binop first acc, ts₀)) = some (e, r) →
          (∀ tk ∈ ts₀, tokWf tk = true) →
          isBLevel e = true ∧ wfE e = true ∧
            (∀ tk ∈ r, tokWf tk = true) := by
        intro ts₀ e r h hw
        rcases hacc' : acc.isEmpty with - | -
        · rw [hacc'] at h
          simp only [Bool.false_eq_true, if_false] at h
          injection h with h1
          injection h1 with h2 h3
          subst h2
          subst h3
          refine ⟨rfl, ?_, hw⟩
          have heq : wfE (LExpr.binop first acc) =
              (((wfE first && isTerm first) && !acc.isEmpty) &&
                wfChain acc) := rfl
          rw [heq, Bool.and_eq_true, Bool.and_eq_true, Bool.and_eq_true]
          refine ⟨⟨⟨hwe, hterm⟩, by rw [hacc']; rfl⟩, ?_⟩
          exact (wfChain_forall acc).mpr
            (fun t ht => ⟨(hacc t ht).2, (hacc t ht).1⟩)
        · rw [hacc'] at h
          simp only [if_true] at h
          injection h with h1
          injection h1 with h2 h3
          subst h2
          subst h3
          exact ⟨term_blevel first hterm, hwe, hw⟩
      rcases ts with - | ⟨t, ts'⟩
      · exact armStop [] e r h hwf
      cases t
      case plus =>
        simp only [parseChain] at h
        rcases hT : parseT fuel ts' with - | ⟨t₂, r₂⟩
        · rw [hT] at h
          exact Option.noConfusion h
        rw [hT] at h
        try dsimp only at h
        obtain ⟨hterm₂, hwe₂, hwr₂⟩ := ihT ts' t₂ r₂ hT (tail_wf _ _ hwf)
        refine ihChain first (acc ++ [t₂]) r₂ e r h hwr₂ hterm hwe ?_
        intro x hx
        rcases List.mem_append.mp hx with hx | hx
        · exact hacc x hx
        · simp at hx
          subst hx
          exact ⟨hterm₂, hwe₂⟩
      all_goals exact armStop _ e r h hwf
    · -- parseE
      intro ts e r h hwf
      have armB : ∀ (ts₀ : List LTok) (e : LExpr) (r : List LTok),
          parseB fuel ts₀ = some (e, r) →
          (∀ tk ∈ ts₀, tokWf tk = true) →
          wfE e = true ∧ (∀ tk ∈ r, tokWf tk = true) := by
        intro ts₀ e r h hw
        obtain ⟨-, hwe, hwr⟩ := ihB ts₀ e r h hw
        exact ⟨hwe, hwr⟩
      rcases ts with - | ⟨t, ts'⟩
      · exact armB [] e r h hwf
      cases t
      case catchKw =>
        simp only [parseE] at h
        rcases hE : parseE fuel ts' with - | ⟨e₁, r₁⟩
        · rw [hE] at h
          exact Option.noConfusion h
        rw [hE] at h
        try dsimp only at h
        injection h with h1
        injection h1 with h2 h3
        subst h2
        subst h3
        obtain ⟨hwe, hwr⟩ := ihE ts' e₁ r₁ hE (tail_wf _ _ hwf)
        exact ⟨hwe, hwr⟩
      all_goals exact armB _ e r h hwf

end Efmt.Layout

namespace Efmt.Layout

theorem blevel_head (e : LExpr) (hb : isBLevel e = true)
    (hw : wfE e = true) :
    (∃ s ts', cstTokens e = LTok.atom s :: ts') ∨
    (∃ s ts', cstTokens e = LTok.var s :: ts') ∨
    (∃ s ts', cstTokens e = LTok.int s :: ts') := by
  cases e with
  | atom s => exact Or.inl ⟨s, [], rfl⟩
  | var s => exact Or.inr (Or.inl ⟨s, [], rfl⟩)
  | int s => exact Or.inr (Or.inr ⟨s, [], rfl⟩)
  | call n args => exact Or.inl ⟨n, _, rfl⟩
  | binop first rest =>
    have heq : wfE (LExpr.binop first rest) =
        (((wfE first && isTerm first) && !rest.isEmpty) &&
          wfChain rest) := rfl
    rw [heq] at hw
    simp only [Bool.and_eq_true] at hw
    obtain ⟨⟨⟨-, hterm⟩, -⟩, -⟩ := hw
    cases first with
    | atom s => exact Or.inl ⟨s, _, rfl⟩
    | var s => exact Or.inr (Or.inl ⟨s, _, rfl⟩)
    | int s => exact Or.inr (Or.inr ⟨s, _, rfl⟩)
    | call n args => exact Or.inl ⟨n, _, rfl⟩
    | binop f r => exact Bool.noConfusion hterm
    | catchE e => exact Bool.noConfusion hterm
  | catchE e => exact Bool.noConfusion hb

theorem stop_noLParen (r : List LTok) (h : stopToks r = true) :
    noLParenHead r = true := by
  rcases r with - | ⟨t, r'⟩
  · rfl
  · cases t <;> first | rfl | exact Bool.noConfusion h

theorem chain_head_noLParen (rest : List LExpr) (r : List LTok)
    (h : stopToks r = true) :
    noLParenHead (cstTokensChain rest ++ r) = true := by
  rcases rest with - | ⟨t, rest'⟩
  · simpa [cstTokensChain] using stop_noLParen r h
  · rfl

end Efmt.Layout

namespace Efmt.Layout

theorem reparse (fuel : Nat) :
    (∀ e r, isTerm e = true → wfE e = true → noLParenHead r = true →
      4 * (cstTokens e).length + 4 * r.length + 1 ≤ fuel →
      parseT fuel (cstTokens e ++ r) = some (e, r)) ∧
    (∀ as r, as ≠ [] → wfArgs as = true →
      4 * (cstTokensArgs as).length + 4 * r.length + 7 ≤ fuel →
      parseArgs fuel (cstTokensArgs as ++ LTok.rparen :: r) =
        some (as, r)) ∧
    (∀ e r, isBLevel e = true → wfE e = true → stopToks r = true →
      4 * (cstTokens e).length + 4 * r.length + 2 ≤ fuel →
      parseB fuel (cstTokens e ++ r) = some (e, r)) ∧
    (∀ first acc rest r,
      (∀ t ∈ rest, isTerm t = true ∧ wfE t = true) →
      stopToks r = true →
      4 * (cstTokensChain rest).length + 4 * r.length + 1 ≤ fuel →
      parseChain fuel first acc (cstTokensChain rest ++ r) =
        some (if (acc ++ rest).isEmpty then first
              else LExpr.binop first (acc ++ rest), r)) ∧
    (∀ e r, wfE e = true → stopToks r = true →
      4 * (cstTokens e).length + 4 * r.length + 3 ≤ fuel →
      parseE fuel (cstTokens e ++ r) = some (e, r)) := by
  induction fuel with
  | zero =>
    refine ⟨?_, ?_, ?_, ?_, ?_⟩
    · intro e r _ _ _ hfuel
      exact absurd hfuel (by omega)
    · intro as r _ _ hfuel
      exact absurd hfuel (by omega)
    · intro e r _ _ _ hfuel
      exact absurd hfuel (by omega)
    · intro first acc rest r _ _ hfuel
      exact absurd hfuel (by omega)
    · intro e r _ _ hfuel
      exact absurd hfuel (by omega)
  | succ fuel ih =>
    obtain ⟨ihT, ihArgs, ihB, ihChain, ihE⟩ := ih
    refine ⟨?_, ?_, ?_, ?_, ?_⟩
    · -- parseT on a term's tokens
      intro e r hterm hw hnol hfuel
      cases e with
      | atom s =>
        rcases r with - | ⟨t, r'⟩
        · rfl
        · cases t <;>
            first
            | rfl
            | exact absurd hnol (by simp [noLParenHead])
      | var s => rfl
      | int s => rfl
      | call n args =>
        rcases args with - | ⟨a, args'⟩
        · rfl
        · have heq : wfE (LExpr.call n (a :: args')) =
              (tokWf (LTok.atom n) && wfArgs (a :: args')) := rfl
          rw [heq, Bool.and_eq_true] at hw
          obtain ⟨-, hwargs⟩ := hw
          have ha := (wfArgs_forall _).mp hwargs a (by simp)
          have hlen : (cstTokens (LExpr.call n (a :: args'))).length =
              (cstTokensArgs (a :: args')).length + 3 := by
            have h1 : cstTokens (LExpr.call n (a :: args')) =
                LTok.atom n :: LTok.lparen ::
                  (cstTokensArgs (a :: args') ++ [LTok.rparen]) := rfl
            rw [h1]
            simp
          have hA := ihArgs (a :: args') r (by simp) hwargs (by omega)
          have htoks : cstTokens (LExpr.call n (a :: args')) ++ r =
              LTok.atom n :: LTok.lparen ::
                (cstTokensArgs (a :: args') ++ (LTok.rparen :: r)) := by
            have h1 : cstTokens (LExpr.call n (a :: args')) =
                LTok.atom n :: LTok.lparen ::
                  (cstTokensArgs (a :: args') ++ [LTok.rparen]) := rfl
            rw [h1]
            simp
          rw [htoks]
          obtain ⟨X, hX⟩ : ∃ X, cstTokensArgs (a :: args') =
              cstTokens a ++ X := by
            rcases args' with - | ⟨b, args''⟩
            · exact ⟨[], by simp [cstTokensArgs]⟩
            · exact ⟨LTok.comma :: cstTokensArgs (b :: args''), rfl⟩
          have armT2 : ∀ (s : String) (hd : LTok) (rest2 : List LTok),
              hd ≠ LTok.rparen →
              parseT (fuel + 1)
                  (LTok.atom s :: LTok.lparen :: hd :: rest2) =
                (match parseArgs fuel (hd :: rest2) with
                 | some (args, r') => some (LExpr.call s args, r')
                 | Option.none => Option.none) := by
            intro s hd rest2 hne
            cases hd <;> first | rfl | exact absurd rfl hne
          rcases blevel_head a ha.2 ha.1 with
            ⟨s₂, ts₂, hts⟩ | ⟨s₂, ts₂, hts⟩ | ⟨s₂, ts₂, hts⟩ <;>
          · rw [hX, hts] at hA ⊢
            simp only [List.cons_append] at hA ⊢
            rw [armT2 n _ _ (by simp), hA]
      | binop first rest => exact Bool.noConfusion hterm
      | catchE e => exact Bool.noConfusion hterm
    · -- parseArgs on argument-list tokens
      intro as r hne hwargs hfuel
      rcases as with - | ⟨a, as'⟩
      · exact absurd rfl hne
      have ha := (wfArgs_forall _).mp hwargs a (by simp)
      rcases as' with - | ⟨b, as''⟩
      · have hlen : (cstTokensArgs [a]).length = (cstTokens a).length := rfl
        show parseArgs (fuel + 1) (cstTokens a ++ LTok.rparen :: r) =
          some ([a], r)
        simp only [parseArgs]
        have hB := ihB a (LTok.rparen :: r) ha.2 ha.1 rfl
          (by simp only [List.length_cons]; omega)
        rw [hB]
      · have hX : cstTokensArgs (a :: b :: as'') =
            cstTokens a ++ LTok.comma :: cstTokensArgs (b :: as'') := rfl
        have hlen : (cstTokensArgs (a :: b :: as'')).length =
            (cstTokens a).length + 1 +
              (cstTokensArgs (b :: as'')).length := by
          rw [hX]
          simp
          omega
        rw [hX]
        simp only [parseArgs]
        have hassoc :
            (cstTokens a ++ LTok.comma :: cstTokensArgs (b :: as'')) ++
              LTok.rparen :: r =
            cstTokens a ++ (LTok.comma ::
              (cstTokensArgs (b :: as'') ++ LTok.rparen :: r)) := by
          simp
        rw [hassoc]
        have hB := ihB a
          (LTok.comma :: (cstTokensArgs (b :: as'') ++ LTok.rparen :: r))
          ha.2 ha.1 rfl
          (by simp only [List.length_cons, List.length_append]; omega)
        rw [hB]
        try dsimp only
        have hwrest : wfArgs (b :: as'') = true :=
          (wfArgs_forall _).mpr
            (fun t ht => (wfArgs_forall _).mp hwargs t (by simp [ht]))
        have hA := ihArgs (b :: as'') r (by simp) hwrest (by omega)
        rw [hA]
    · -- parseB on a chain-level expression's tokens
      intro e r hbl hw hstop hfuel
      rcases hterm : isTerm e with - | -
      · cases e with
        | atom s => exact Bool.noConfusion hterm
        | var s => exact Bool.noConfusion hterm
        | int s => exact Bool.noConfusion hterm
        | call n args => exact Bool.noConfusion hterm
        | catchE e => exact Bool.noConfusion hbl
        | binop first rest =>
          have heq : wfE (LExpr.binop first rest) =
              (((wfE first && isTerm first) && !rest.isEmpty) &&
                wfChain rest) := rfl
          rw [heq] at hw
          simp only [Bool.and_eq_true] at hw
          obtain ⟨⟨⟨hwf, htermf⟩, hne⟩, hchain⟩ := hw
          have hrne : rest.isEmpty = false := by
            rcases rest with - | ⟨x, xs⟩
            · exact Bool.noConfusion hne
            · rfl
          have hcst : cstTokens (LExpr.binop first rest) =
              cstTokens first ++ cstTokensChain rest := rfl
          have hlen : (cstTokens (LExpr.binop first rest)).length =
              (cstTokens first).length +
                (cstTokensChain rest).length := by
            rw [hcst]
            simp
          rw [hcst]
          simp only [parseB]
          have hassoc : (cstTokens first ++ cstTokensChain rest) ++ r =
              cstTokens first ++ (cstTokensChain rest ++ r) := by
            simp
          rw [hassoc]
          have hT := ihT first (cstTokensChain rest ++ r) htermf hwf
            (chain_head_noLParen rest r hstop)
            (by simp only [List.length_append]; omega)
          rw [hT]
          try dsimp only
          have hC := ihChain first [] rest r
            (fun t ht =>
              ⟨((wfChain_forall rest).mp hchain t ht).2,
               ((wfChain_forall rest).mp hchain t ht).1⟩)
            hstop (by omega)
          rw [hC]
          simp [hrne]
      · simp only [parseB]
        have hT := ihT e r hterm hw (stop_noLParen r hstop) (by omega)
        rw [hT]
        try dsimp only
        have hC := ihChain e [] [] r (by simp) hstop
          (by
            have h0 : (cstTokensChain []).length = 0 := rfl
            omega)
        simp only [cstTokensChain, List.nil_append] at hC
        simp only [List.append_nil, List.isEmpty_nil, if_true] at hC
        exact hC
    · -- parseChain on chain tokens
      intro first acc rest r hrest hstop hfuel
      rcases rest with - | ⟨t, rest'⟩
      · simp only [cstTokensChain, List.nil_append, List.append_nil]
        rcases r with - | ⟨t, r'⟩
        · simp only [parseChain]
          rcases hacc : acc.isEmpty with - | - <;> simp [hacc]
        · cases t <;>
            first
            | exact absurd hstop (fun hx => Bool.noConfusion hx)
            | (simp only [parseChain]
               rcases hacc : acc.isEmpty with - | - <;> simp [hacc])
      · have hrt := hrest t (by simp)
        have hcst : cstTokensChain (t :: rest') =
            LTok.plus :: cstTokens t ++ cstTokensChain rest' := rfl
        have hlen : (cstTokensChain (t :: rest')).length =
            1 + (cstTokens t).length +
              (cstTokensChain rest').length := by
          rw [hcst]
          simp
          omega
        rw [hcst]
        simp only [List.cons_append, List.append_assoc]
        simp only [parseChain]
        have hT := ihT t (cstTokensChain rest' ++ r) hrt.1 hrt.2
          (chain_head_noLParen rest' r hstop)
          (by simp only [List.length_append]; omega)
        rw [hT]
        try dsimp only
        have hC := ihChain first (acc ++ [t]) rest' r
          (fun x hx => hrest x (by simp [hx])) hstop (by omega)
        rw [hC]
        simp [List.append_assoc]
    · -- parseE on a well-formed expression's tokens
      intro e r hw hstop hfuel
      rcases hbl : isBLevel e with - | -
      · cases e with
        | atom s => exact Bool.noConfusion hbl
        | var s => exact Bool.noConfusion hbl
        | int s => exact Bool.noConfusion hbl
        | call n args => exact Bool.noConfusion hbl
        | binop first rest => exact Bool.noConfusion hbl
        | catchE e' =>
          have hw' : wfE e' = true := hw
          have hcst : cstTokens (LExpr.catchE e') ++ r =
              LTok.catchKw :: (cstTokens e' ++ r) := rfl
          have hlen : (cstTokens (LExpr.catchE e')).length =
              (cstTokens e').length + 1 := rfl
          rw [hcst]
          simp only [parseE]
          have hE := ihE e' r hw' hstop (by omega)
          rw [hE]
      · have armE : ∀ (hd : LTok) (rest2 : List LTok),
            hd ≠ LTok.catchKw →
            parseE (fuel + 1) (hd :: rest2) = parseB fuel (hd :: rest2) := by
          intro hd rest2 hne
          cases hd <;> first | rfl | exact absurd rfl hne
        have hB := ihB e r hbl hw hstop (by omega)
        rcases blevel_head e hbl hw with
          ⟨s₂, ts₂, hts⟩ | ⟨s₂, ts₂, hts⟩ | ⟨s₂, ts₂, hts⟩ <;>
        · rw [hts] at hB ⊢
          simp only [List.cons_append] at hB ⊢
          rw [armE _ _ (by simp), hB]

end Efmt.Layout

namespace Efmt.Layout

open Efmt.Fmt

/-- C1: formatting is idempotent on the modelled fragment — whenever
`format_text` succeeds on a source text `x` (its tokens parse as one
complete expression) and produces `o`, running `format_text` on `o`
succeeds and returns `o` itself byte-for-byte; equivalently
`format(format(x)) = format(x)`.  The proof re-lexes the emitted buffer
back to the expression's exact token sequence and re-parses that
sequence to the identical tree, so the second run formats the same tree
from the same initial state. -/
theorem formatText_idempotent (maxCols : Nat) (x o : String)
    (h : formatText maxCols x = some o) :
    formatText maxCols o = some o := by
  unfold formatText at h
  split at h
  · exact Option.noConfusion h
  next toks heq1 =>
    split at h
    case h_2 => exact Option.noConfusion h
    case h_1 e hp =>
      obtain rfl := (Option.some.inj h).symm
      have htokswf := tokenize_wf x toks heq1
      have hwfe : wfE e = true :=
        ((parse_wf (4 * toks.length + 4)).2.2.2.2 toks e [] hp htokswf).1
      obtain ⟨w, hbuf, hg, -⟩ :=
        fmt_emits e hwfe (initFormatter maxCols)
      have hbuf' : (fmtE e (initFormatter maxCols)).buf = w := by
        rw [hbuf]
        have h1 : (initFormatter maxCols).buf = "" := rfl
        have h2 : pendStr (initFormatter maxCols) = "" := rfl
        rw [h1, h2, String.empty_append, String.empty_append]
      have hto : tokenize ((fmtE e (initFormatter maxCols)).buf) =
          some (cstTokens e) := by
        rw [hbuf']
        exact emits_tokenize w _ hg
      have hre := (reparse (4 * (cstTokens e).length + 4)).2.2.2.2
        e [] hwfe rfl (by simp)
      rw [List.append_nil] at hre
      unfold formatText
      rw [hto]
      try dsimp only
      have hre' : parseE (4 * (cstTokens e).length + 4) (cstTokens e) =
          some (e, []) := hre
      rw [hre']
  done

/-- Witness for C1 at scenario S6: the formatted output of
`catch foo(bar,Baz,qux)+3+4` at 20 columns is itself a fixed point of
`format_text`. -/
theorem formatText_idempotent_witness :
    formatText 20 "catch foo(bar,Baz,qux)+3+4" =
      some "catch foo(bar,\n          Baz,\n          qux) + 3 +\n      4" ∧
    formatText 20
        "catch foo(bar,\n          Baz,\n          qux) + 3 +\n      4" =
      some "catch foo(bar,\n          Baz,\n          qux) + 3 +\n      4" :=
  ⟨rfl, formatText_idempotent 20 "catch foo(bar,Baz,qux)+3+4"
    "catch foo(bar,\n          Baz,\n          qux) + 3 +\n      4" rfl⟩

end Efmt.Layout
